import Mathlib

/-!
Verification of the react-analyzer import-graph engine.

This file gives a shallow embedding of the Rust sources
(`src/extract.rs`, `src/ts_config.rs`, `src/path_utils.rs`,
`src/package_json.rs`, `src/languages/mod.rs`, `src/languages/unknown.rs`)
and proves or refutes the frozen behavioural claims about them.

Modelling conventions:
* A filesystem path is modelled by its sequence of `std::path::Component`s
  (Unix flavour: `Prefix` components only exist on Windows and are omitted).
  Rust `Path`/`PathBuf` operations (`components`, `pop`, `push`, `join`,
  `parent`, `file_name`, `file_stem`, `extension`, `with_extension`,
  `starts_with`, `display`) are modelled on that representation.
* Rust `str` operations are modelled on `List Char` (`String.data`); for the
  ASCII data handled by this program, Rust byte-level semantics and the
  character-level semantics coincide.
* Rust panics (`unwrap`, `expect`, `panic!` arms, out-of-bounds indexing) and
  the one source of non-termination (`path_distance` on a mixed
  absolute/relative pair) are represented by `Option`, `none` meaning
  "the Rust computation does not return normally".
* `HashMap`s are modelled as association lists; insertion updates an existing
  key in place and otherwise appends.  Iteration order of a `HashMap` is
  unspecified in Rust; consequently only order-insensitive facts about
  iteration results are claimed.
-/

namespace ReactAnalyzer

/-! ## Character-level models of the Rust `str` operations -/

/-- Model of Rust `str::starts_with` on a string pattern. -/
def strStartsWith (s p : String) : Bool := p.data.isPrefixOf s.data

/-- Model of Rust `str::ends_with` on a string pattern
(a suffix test, implemented on reversed character lists). -/
def strEndsWith (s p : String) : Bool := p.data.reverse.isPrefixOf s.data.reverse

/-- Drop the last `n` characters; models Rust `str::strip_suffix` for a
suffix of known length `n` (and `String::pop` for `n = 1`). -/
def strDropRight (s : String) (n : Nat) : String := ⟨s.data.take (s.data.length - n)⟩

/-- Split a character list at `'/'`; accumulator holds the current segment
reversed.  Models Rust `str::split('/')` (empty segments are kept). -/
def splitCharAux : List Char → List Char → List (List Char)
  | [], acc => [acc.reverse]
  | c :: rest, acc =>
    if c = '/' then acc.reverse :: splitCharAux rest [] else splitCharAux rest (c :: acc)

/-- Model of Rust `str::split('/')` collected into a vector. -/
def splitSlash (s : String) : List String := (splitCharAux s.data []).map String.mk

/-- Fuel-indexed scan replacing occurrences of the nonempty pattern `pat`
by `rep`, left to right, without overlap.  Fuel `≥` input length suffices. -/
def chReplaceFuel (pat rep : List Char) : Nat → List Char → List Char
  | 0, l => l
  | _ + 1, [] => []
  | fuel + 1, c :: rest =>
    if pat.isPrefixOf (c :: rest) then rep ++ chReplaceFuel pat rep fuel ((c :: rest).drop pat.length)
    else c :: chReplaceFuel pat rep fuel rest

/-- Model of Rust `str::replace` (all non-overlapping occurrences, left to
right; an empty pattern matches at every character boundary). -/
def strReplace (s pat rep : String) : String :=
  if pat.data = [] then ⟨rep.data ++ (s.data.map (fun c => c :: rep.data)).flatten⟩
  else ⟨chReplaceFuel pat.data rep.data s.data.length s.data⟩

/-! ## Path components (`std::path::Component`, Unix flavour) -/

/-- A `std::path::Component` (the Windows-only `Prefix` variant is omitted). -/
inductive PComponent
  | rootDir
  | curDir
  | parentDir
  | normal (s : String)
deriving DecidableEq, Repr

/-- A Rust `Path`/`PathBuf`, represented by its component sequence. -/
abbrev FsPath := List PComponent

/-- Classify one nonempty path segment the way `Path::components` does:
empty and (non-leading) `"."` segments vanish, `".."` is `ParentDir`. -/
def segComp (s : String) : Option PComponent :=
  if s = "" then none
  else if s = "." then none
  else if s = ".." then some .parentDir
  else some (.normal s)

/-- Model of `Path::components` for a path given as a string: an optional
leading `RootDir`, a leading `"."` kept as `CurDir`, and the remaining
nonempty, non-`"."` segments. -/
def parsePath (s : String) : FsPath :=
  let segs := splitSlash s
  if strStartsWith s "/" then .rootDir :: segs.filterMap segComp
  else
    match segs with
    | [] => []
    | first :: rest =>
      if first = "." then .curDir :: rest.filterMap segComp
      else if first = ".." then segs.filterMap segComp
      else segs.filterMap segComp

/-- The text of one component inside `Display` output. -/
def compStr : PComponent → String
  | .rootDir => "/"
  | .curDir => "."
  | .parentDir => ".."
  | .normal s => s

/-- Join segments with `'/'`. -/
def joinSlash : List String → String
  | [] => ""
  | [s] => s
  | s :: rest => s ++ "/" ++ joinSlash rest

/-- Model of `Path::display().to_string()` for a component-built path. -/
def renderPath : FsPath → String
  | .rootDir :: rest => "/" ++ joinSlash (rest.map compStr)
  | p => joinSlash (p.map compStr)

/-- Model of `PathBuf::pop`: removes the last component; a bare root (or an
empty path) is left unchanged. -/
def popPath (p : FsPath) : FsPath :=
  if p = [.rootDir] then p else p.dropLast

/-- Model of `PathBuf::push`/`Path::join`: pushing an absolute path replaces
the receiver, otherwise the components are appended. -/
def pushPath (p q : FsPath) : FsPath :=
  if q.head? = some .rootDir then q else p ++ q

/-- Index of the last `'.'` in a character list, if any. -/
def lastDotIdx (l : List Char) : Option Nat :=
  (List.range l.length).foldl (fun acc i => if l.getD i ' ' = '.' then some i else acc) none

/-- Model of Rust `Path::file_stem` on a file-name string: the portion before
the final `'.'`, or the whole name when there is no `'.'` or only a leading
one. -/
def fileStemStr (s : String) : String :=
  match lastDotIdx s.data with
  | some i => if i = 0 then s else ⟨s.data.take i⟩
  | none => s

/-- Model of Rust `Path::extension` on a file-name string. -/
def fileExtStr (s : String) : Option String :=
  match lastDotIdx s.data with
  | some i => if i = 0 then none else some ⟨s.data.drop (i + 1)⟩
  | none => none

/-- Model of `Path::file_name`: the last component when it is a normal one. -/
def fileNameOf? (p : FsPath) : Option String :=
  match p.getLast? with
  | some (.normal s) => some s
  | _ => none

/-- Model of `Path::file_stem` on a path. -/
def fileStemOf? (p : FsPath) : Option String := (fileNameOf? p).map fileStemStr

/-- Model of `Path::extension` on a path. -/
def fileExtensionOf? (p : FsPath) : Option String := (fileNameOf? p).bind fileExtStr

/-- Model of `Path::with_extension`: replaces the extension of the final
normal component (removing it when `ext = ""`); paths without a file name are
returned unchanged. -/
def withExtension (p : FsPath) (ext : String) : FsPath :=
  match p.getLast? with
  | some (.normal s) =>
    p.dropLast ++ [.normal (fileStemStr s ++ (if ext = "" then "" else "." ++ ext))]
  | _ => p

/-- Model of `Path::parent`. -/
def parentPath (p : FsPath) : Option FsPath :=
  if p = [] ∨ p = [.rootDir] then none else some p.dropLast

/-- A path is absolute when it has a root component (Unix). -/
def isAbs (p : FsPath) : Bool := p.head? = some .rootDir


/-! ## `src/path_utils.rs` -/

/-- Fuel-indexed model of `path_utils::path_distance` (`src/path_utils.rs`):
equal paths are `0` apart; otherwise one trailing component is popped from the
longer path (ties popping the second argument) and `1` is added.  The Rust
recursion either strictly shrinks the total component count at every step or
reaches a fixed point from which it never returns (popping a bare root or an
empty path changes nothing), so fuel `a.length + b.length + 1` is exact:
`none` means the Rust call diverges. -/
def pathDistanceFuel : Nat → FsPath → FsPath → Option Nat
  | 0, _, _ => none
  | fuel + 1, a, b =>
    if a = b then some 0
    else if b.length < a.length then (pathDistanceFuel fuel (popPath a) b).map (· + 1)
    else (pathDistanceFuel fuel a (popPath b)).map (· + 1)

/-- `path_utils::path_distance`, with the exact fuel. -/
def path_distance (a b : FsPath) : Option Nat :=
  pathDistanceFuel (a.length + b.length + 1) a b

/-! ## `src/ts_config.rs` -/

/-- `tsconfig.json` `compilerOptions` (`src/ts_config.rs`); the `paths` alias
map is an association list in some `HashMap` iteration order. -/
structure CompilerOptions where
  base_url : Option String
  paths : Option (List (String × List String))
deriving DecidableEq, Repr

/-- `ts_config::TypeScriptConfig`. -/
structure TypeScriptConfig where
  compiler_options : Option CompilerOptions
  file_path : Option String
deriving DecidableEq, Repr

/-- `ts_config::get_aliases`. -/
def get_aliases (ts_config : Option TypeScriptConfig) : Option (List (String × List String)) :=
  (ts_config.bind (·.compiler_options)).bind (·.paths)

/-- `ts_config::get_base_path`. -/
def get_base_path (ts_config : Option TypeScriptConfig) : Option String :=
  (ts_config.bind (·.compiler_options)).bind (·.base_url)

/-- Loop of `ts_config::get_closest` over the remaining configs, carrying the
current `closest` config together with its `closest_distance`.  The outer
`Option` is `none` when the Rust loop panics (a config without `file_path`)
or never returns (a diverging `path_distance` call).  Note the source
computes the first match distance as `path_distance(path, config_path)` and
later ones as `path_distance(config_path, path)`. -/
def getClosestAux (path : FsPath) :
    List TypeScriptConfig → Option (TypeScriptConfig × Nat) → Option (Option TypeScriptConfig)
  | [], closest => some (closest.map (·.1))
  | config :: rest, closest =>
    match config.file_path with
    | none => none
    | some fp =>
      let config_path := popPath (parsePath fp)
      if config_path.isPrefixOf path then
        match closest with
        | none =>
          match path_distance path config_path with
          | none => none
          | some d => getClosestAux path rest (some (config, d))
        | some (cc, cd) =>
          match path_distance config_path path with
          | none => none
          | some d =>
            if d < cd then getClosestAux path rest (some (config, d))
            else getClosestAux path rest (some (cc, cd))
      else getClosestAux path rest closest

/-- `ts_config::get_closest`: the config whose directory is a path-prefix of
`path` with the smallest path distance (first winner kept on ties). -/
def get_closest (ts_configs : List TypeScriptConfig) (path : FsPath) :
    Option (Option TypeScriptConfig) :=
  getClosestAux path ts_configs none

/-! ## `src/languages/mod.rs` data model -/

/-- `languages::Import`. -/
structure Import where
  source : String
  file_path : String
  named : List String
  is_default : Bool
  line : Nat
deriving DecidableEq, Repr

/-- `languages::Export`. -/
structure Export where
  file_path : String
  line : Nat
  named : List String
  default : String
  source : String
deriving DecidableEq, Repr

/-- `languages::ParsedFile`. -/
structure ParsedFile where
  line_count : Nat
  imports : List Import
  exports : List Export
  name : String
  extension : String
  path : String
deriving DecidableEq, Repr

/-! ## `src/extract.rs` graph data model -/

/-- `extract::Node`. -/
structure Node where
  id : Nat
  path : String
  file_name : Option String
  extension : Option String
  line_count : Option Nat
deriving DecidableEq, Repr

/-- `extract::Edge`. -/
structure Edge where
  id : Nat
  source : Nat
  target : Nat
  is_default : Bool
  name : String
deriving DecidableEq, Repr

/-- `extract::ImportGraph`. -/
structure ImportGraph where
  nodes : List Node
  edges : List Edge
deriving DecidableEq, Repr

/-- The node map `HashMap<String, Node>` as an association list. -/
abbrev NodeMap := List (String × Node)

/-- `HashMap::contains_key`. -/
def mapContains (m : NodeMap) (k : String) : Bool := m.any (fun p => p.1 == k)

/-- `HashMap::get`. -/
def mapGet? (m : NodeMap) (k : String) : Option Node :=
  (m.find? (fun p => p.1 == k)).map (·.2)

/-- `HashMap::insert`: update an existing key in place, else append. -/
def mapInsert (m : NodeMap) (k : String) (v : Node) : NodeMap :=
  if mapContains m k then m.map (fun p => if p.1 == k then (k, v) else p)
  else m ++ [(k, v)]

/-- `HashMap::remove`. -/
def mapRemove (m : NodeMap) (k : String) : NodeMap := m.filter (fun p => !(p.1 == k))

/-! ## `src/extract.rs`: `normalize_path` -/

/-- Loop body of `extract::normalize_path` over the remaining components,
`acc` being the `ret` buffer: `RootDir` is pushed (resetting the buffer, as
pushing an absolute path does), `CurDir` is dropped, `ParentDir` pops, and a
normal component is appended. -/
def normalizeFrom (acc : FsPath) : FsPath → FsPath
  | [] => acc
  | .rootDir :: rest => normalizeFrom (pushPath acc [.rootDir]) rest
  | .curDir :: rest => normalizeFrom acc rest
  | .parentDir :: rest => normalizeFrom (popPath acc) rest
  | .normal s :: rest => normalizeFrom (acc ++ [.normal s]) rest

/-- `extract::normalize_path` (the Windows `Prefix` peeling at the top of the
Rust function is vacuous on Unix paths). -/
def normalize_path (p : FsPath) : FsPath := normalizeFrom [] p

/-! ## `src/extract.rs`: import-graph construction -/

/-- The final `if src.ends_with('/') { src.pop(); }` step of source-key
computation. -/
def stripTrailingSlash (s : String) : String :=
  if strEndsWith s "/" then strDropRight s 1 else s

/-- The alias-substitution loop of `extract::extract_import_graph`
(lines 229-253): for each alias pattern in iteration order, a trailing `*` is
stripped from the pattern and its first replacement (the `unwrap` panics,
`none` here, when the first replacement lacks the `*` or the replacement
vector is empty), and when the current `src` starts with the de-wildcarded
pattern it is rewritten to the normalized display of
`config_dir [/ base_url] / src.replace(pattern, replacement)`.  Later
aliases observe the rewritten `src`. -/
def applyAliases (cfg_file_path : Option String) (base_path : Option String) :
    List (String × List String) → String → Option String
  | [], src => some src
  | (al, vals) :: rest, src =>
    match vals.head? with
    | none => none
    | some v0 =>
      let dewild : Option (String × String) :=
        if strEndsWith al "*" then
          if strEndsWith v0 "*" then some (strDropRight al 1, strDropRight v0 1) else none
        else some (al, v0)
      match dewild with
      | none => none
      | some (my_alias, value) =>
        if strStartsWith src my_alias then
          match cfg_file_path with
          | none => none
          | some cfgp =>
            let path := popPath (parsePath cfgp)
            let path :=
              match base_path with
              | some bp => pushPath path (parsePath bp)
              | none => path
            let replaced := strReplace src my_alias value
            let path := pushPath path (parsePath replaced)
            applyAliases cfg_file_path base_path rest (renderPath (normalize_path path))
        else applyAliases cfg_file_path base_path rest src

/-- Canonical source-key computation for one import
(`extract::extract_import_graph` lines 213-260): a specifier starting with
`.` is resolved against the directory of the importing file and normalized;
otherwise alias substitution is attempted; a trailing `/` is stripped. -/
def resolveSource (ts_config : Option TypeScriptConfig) (imp : Import) : Option String :=
  let res : Option String :=
    if strStartsWith imp.source "." then
      some (renderPath (normalize_path
        (pushPath (popPath (parsePath imp.file_path)) (parsePath imp.source))))
    else
      match get_aliases ts_config with
      | none => some imp.source
      | some alist =>
        match ts_config with
        | none => none
        | some cfg => applyAliases cfg.file_path (get_base_path ts_config) alist imp.source
  res.map stripTrailingSlash

/-- Mutable state of the `extract_import_graph` loop. -/
structure BuildState where
  node_count : Nat
  edge_count : Nat
  node_map : NodeMap
  edges : List Edge
deriving Repr

/-- Lines 261-273: create a placeholder node for a resolved source key not
yet present in the node map. -/
def ensureSourceNode (st : BuildState) (src : String) : BuildState :=
  if !(mapContains st.node_map src) then
    { st with
      node_map := mapInsert st.node_map src ⟨st.node_count, src, none, none, none⟩,
      node_count := st.node_count + 1 }
  else st

/-- Lines 213-296: process one import of the file keyed `fileKey`: resolve
its source, ensure a source node, and push one edge per named binding plus
one extra empty-named edge when the import has a default binding. -/
def processImport (ts_config : Option TypeScriptConfig) (fileKey : String)
    (st : BuildState) (imp : Import) : Option BuildState :=
  match resolveSource ts_config imp with
  | none => none
  | some src =>
    let st := ensureSourceNode st src
    match mapGet? st.node_map src, mapGet? st.node_map fileKey with
    | some sn, some tn =>
      let st := imp.named.foldl
        (fun st name =>
          { st with
            edges := st.edges ++ [⟨st.edge_count, sn.id, tn.id, imp.is_default, name⟩],
            edge_count := st.edge_count + 1 }) st
      some (if imp.is_default then
        { st with
          edges := st.edges ++ [⟨st.edge_count, sn.id, tn.id, imp.is_default, ""⟩],
          edge_count := st.edge_count + 1 }
      else st)
    | _, _ => none

/-- Lines 199-211: fill the `None` fields of an already existing node from
the parsed file (first writer wins). -/
def completeNode (n : Node) (file : ParsedFile) : Node :=
  { n with
    file_name := match n.file_name with | none => some file.name | some x => some x,
    extension := match n.extension with | none => some file.extension | some x => some x,
    line_count := match n.line_count with | none => some file.line_count | some x => some x }

/-- Lines 150-297: process one parsed file: closest-config lookup, the
`index`-file merge rule (lines 167-185: when the parent-directory key is
already mapped and the file stem is `index`, the directory-keyed node is
re-keyed to the full path of the file, keeping its `id` and `line_count`),
creation or completion of the own node of the file, then the imports. -/
def processFile (ts_configs : List TypeScriptConfig) (st : BuildState)
    (file : ParsedFile) : Option BuildState :=
  match get_closest ts_configs (parsePath file.path) with
  | none => none
  | some ts_config =>
    let fileKey := file.path
    let path := withExtension (parsePath file.path) ""
    let file_name := (fileNameOf? path).getD ""
    let dir :=
      match parentPath path with
      | some p => renderPath p
      | none => ""
    let merged : Option BuildState :=
      if mapContains st.node_map dir && (file_name == "index") then
        match mapGet? st.node_map dir,
              fileNameOf? (parsePath file.path), fileExtensionOf? (parsePath file.path) with
        | some old, some fn, some ext =>
          some { st with
            node_map := mapInsert (mapRemove st.node_map dir) fileKey
              ⟨old.id, fileKey, some fn, some ext, old.line_count⟩ }
        | _, _, _ => none
      else some st
    match merged with
    | none => none
    | some st =>
      let st :=
        if !(mapContains st.node_map fileKey) then
          { st with
            node_map := mapInsert st.node_map fileKey
              ⟨st.node_count, fileKey, some file.name, some file.extension, some file.line_count⟩,
            node_count := st.node_count + 1 }
        else
          match mapGet? st.node_map fileKey with
          | some n => { st with node_map := mapInsert st.node_map fileKey (completeNode n file) }
          | none => st
      file.imports.foldlM (processImport ts_config fileKey) st

/-- `extract::extract_import_graph` (lines 142-300).  `none` when the Rust
run panics or hangs; the `nodes` vector collects the node-map values (the
Rust `HashMap` iteration order is unspecified, so only order-insensitive
facts about `nodes` are claimed). -/
def extract_import_graph (files : List ParsedFile) (ts_configs : List TypeScriptConfig) :
    Option ImportGraph :=
  (files.foldlM (processFile ts_configs) ⟨0, 0, [], []⟩).map
    (fun st => ⟨st.node_map.map (·.2), st.edges⟩)


/-! ## `src/extract.rs`: dead files and unknown imports -/

/-- Lines 106-111: a node id is connected when it occurs as either endpoint
of some edge (the source fills a `HashMap` with all endpoint ids and tests
`contains_key`). -/
def isConnected (g : ImportGraph) (id : Nat) : Bool :=
  g.edges.any (fun e => e.source == id || e.target == id)

/-- Lines 117-124: the accumulated component prefixes of a node path, as the
display strings of the successively pushed `PathBuf`. -/
def accSlashPrefixes (comps : FsPath) : List String :=
  (List.range comps.length).map (fun i => renderPath (comps.take (i + 1)))

/-- Lines 117-124: whether some accumulated component-prefix of `p` equals a
declared dependency name. -/
def isDependencyPath (dependencies : List String) (p : String) : Bool :=
  (accSlashPrefixes (parsePath p)).any (fun s => dependencies.contains s)

/-- Body of the per-node loop of `extract::extract_dead_files` (lines
114-138).  The filesystem is the external collaborator here, so
`Path::exists` is a parameter `fsExists`; the probed location is
`root.join(node.path).with_extension(ext)` with `ext` the extension of the
node, defaulted to `""`. -/
def deadStep (g : ImportGraph) (dependencies : List String) (root : FsPath)
    (fsExists : FsPath → Bool) (acc : List String × List String) (n : Node) :
    List String × List String :=
  if !(isConnected g n.id) then
    if !(isDependencyPath dependencies n.path) then
      if fsExists (withExtension (pushPath root (parsePath n.path)) (n.extension.getD "")) then
        (acc.1 ++ [n.path], acc.2)
      else
        (acc.1, acc.2 ++ [n.path])
    else acc
  else acc

/-- `extract::extract_dead_files` (lines 101-140), the fold of `deadStep`
over the nodes. -/
def extract_dead_files (g : ImportGraph) (dependencies : List String) (root : FsPath)
    (fsExists : FsPath → Bool) : List String × List String :=
  g.nodes.foldl (deadStep g dependencies root fsExists) ([], [])

/-! ## `src/package_json.rs` and `extract::extract_package_json` -/

/-- `package_json::PackageJson`; the three dependency tables are association
lists in some `HashMap` iteration order. -/
structure PackageJson where
  dependencies : Option (List (String × String))
  dev_dependencies : Option (List (String × String))
  peer_dependencies : Option (List (String × String))
  file_path : String
deriving DecidableEq, Repr

/-- `package_json::list_dependencies`: only the keys of the `dependencies`
table (the dev and peer tables are not consulted by the source). -/
def list_dependencies (package_json : PackageJson) : List String :=
  match package_json.dependencies with
  | some deps => deps.map (·.1)
  | none => []

/-- The usage-counter map `HashMap<String, usize>` as an association list. -/
abbrev CountMap := List (String × Nat)

/-- `HashMap::contains_key` on the counter map. -/
def cmContains (m : CountMap) (k : String) : Bool := m.any (fun p => p.1 == k)

/-- `HashMap::get` on the counter map. -/
def cmGet? (m : CountMap) (k : String) : Option Nat :=
  (m.find? (fun p => p.1 == k)).map (·.2)

/-- `HashMap::insert` on the counter map. -/
def cmInsert (m : CountMap) (k : String) (v : Nat) : CountMap :=
  if cmContains m k then m.map (fun p => if p.1 == k then (k, v) else p)
  else m ++ [(k, v)]

/-- `*dependencies.get_mut(&package).unwrap() += 1`. -/
def cmBump (m : CountMap) (k : String) : CountMap :=
  m.map (fun p => if p.1 == k then (p.1, p.2 + 1) else p)

/-- Lines 393-400: walk the `/`-split segments of an import specifier,
accumulating a prefix; the first accumulated prefix that is a counter key is
bumped and the walk stops. -/
def bumpFirstMatch (m : CountMap) : List String → String → CountMap
  | [], _ => m
  | s :: rest, package =>
    let package := package ++ s
    if cmContains m package then cmBump m package
    else bumpFirstMatch m rest (package ++ "/")

/-- Lines 386-401: process one import: specifiers starting with `.` are
skipped, the rest feed the accumulated-prefix walk. -/
def countImport (m : CountMap) (imp : Import) : CountMap :=
  if strStartsWith imp.source "." then m
  else bumpFirstMatch m (splitSlash imp.source) ""

/-- `extract::PackageJsonExtract`. -/
structure PackageJsonExtract where
  dependencies : CountMap
deriving DecidableEq, Repr

/-- `extract::extract_package_json` (lines 375-404): seed a zero counter for
every name listed by `list_dependencies` of every `package.json`, then count
the imports of all files. -/
def extract_package_json (files : List ParsedFile) (package_jsons : List PackageJson) :
    PackageJsonExtract :=
  let seeded := package_jsons.foldl
    (fun m pj => (list_dependencies pj).foldl (fun m d => cmInsert m d 0) m) []
  ⟨files.foldl (fun m f => f.imports.foldl countImport m) seeded⟩

/-! ## `src/languages/mod.rs`: the per-file parsing dispatch -/

/-- The language-handler singletons of `languages::mod.rs` (`JS`, `TS`,
`UK`); `TypeScript::parse_file` delegates to `JavaScript`, so both families
are kept distinct only by which constant the dispatch names. -/
inductive LanguageKind
  | jsLang
  | tsLang
  | ukLang
deriving DecidableEq, Repr

/-- `languages::parse_file` dispatch (lines 57-68), modelled as the choice of
handler: a path with no extension at all goes to the `Unknown` handler, the
four known extensions go to the JS/TS handlers, and any other extension hits
the `panic!` arm (`none`). -/
def parse_file (path : String) : Option LanguageKind :=
  match fileExtensionOf? (parsePath path) with
  | none => some .ukLang
  | some e =>
    if e = "js" then some .jsLang
    else if e = "ts" then some .tsLang
    else if e = "jsx" then some .jsLang
    else if e = "tsx" then some .tsLang
    else none

/-- `Unknown::parse_file` (`src/languages/unknown.rs` lines 13-26): reads the
file (the line list is the external input here) and produces a `ParsedFile`
with no imports, no exports and just the line count; `file_name` and
`extension` are `unwrap`ped from the path, so a path without an extension
panics (`none`).  The stray `variable_count` field in that file belongs to an
older revision of `ParsedFile` and has no counterpart in
`languages::mod.rs`. -/
def unknownParseFile (path : String) (fileLines : List String) : Option ParsedFile :=
  match fileNameOf? (parsePath path), fileExtensionOf? (parsePath path) with
  | some fn, some ext =>
    some ⟨fileLines.length, [], [], fn, ext, path⟩
  | _, _ => none


/-! ## Specification-side definitions used by the claims -/

/-- Well-formedness of a graph: every edge endpoint id names some node. -/
def wellFormedGraph (g : ImportGraph) : Bool :=
  g.edges.all (fun e =>
    g.nodes.any (fun n => n.id == e.source) && g.nodes.any (fun n => n.id == e.target))

/-- The recursively specified path distance of the specification: equal paths
are `0` apart; otherwise one trailing component is popped from whichever path
has more components (ties popping the second argument) and `1` is added. -/
inductive DistSpec : FsPath → FsPath → Nat → Prop
  | refl (a : FsPath) : DistSpec a a 0
  | popLeft {a b : FsPath} {n : Nat} :
      a ≠ b → b.length < a.length → DistSpec (popPath a) b n → DistSpec a b (n + 1)
  | popRight {a b : FsPath} {n : Nat} :
      a ≠ b → ¬ b.length < a.length → DistSpec a (popPath b) n → DistSpec a b (n + 1)

/-- The directory of a config: its `file_path` with the file name popped. -/
def configDir (c : TypeScriptConfig) : FsPath := popPath (parsePath (c.file_path.getD ""))

/-- The four connectivity classes of `extract_dead_files`, assigned in the
order the source tests them. -/
inductive NodeClass
  | connected
  | dependency
  | deadFile
  | unknownImport
deriving DecidableEq, Repr

/-- The class `extract_dead_files` assigns to a node: connected nodes first,
then external dependencies, then dead (on disk) versus unknown (not on
disk). -/
def classifyNode (g : ImportGraph) (dependencies : List String) (root : FsPath)
    (fsExists : FsPath → Bool) (n : Node) : NodeClass :=
  if isConnected g n.id then .connected
  else if isDependencyPath dependencies n.path then .dependency
  else if fsExists (withExtension (pushPath root (parsePath n.path)) (n.extension.getD "")) then
    .deadFile
  else .unknownImport

/-- Union of the names seeded by `extract_package_json` from all
`package.json` files. -/
def declaredNames (package_jsons : List PackageJson) : List String :=
  (package_jsons.map list_dependencies).flatten

/-- The `/`-accumulated prefixes a specifier walk visits, in order. -/
def accPieces : List String → String → List String
  | [], _ => []
  | s :: rest, acc => (acc ++ s) :: accPieces rest (acc ++ s ++ "/")

/-- The first `/`-accumulated prefix of a specifier that is a declared
name. -/
def firstAccMatch (names : List String) (source : String) : Option String :=
  (accPieces (splitSlash source) "").find? (fun p => names.contains p)

/-! ## Concrete scenario data for the claims -/

/-- An import of `./Foo` (directory abbreviation of `Foo/index.ts`). -/
def c1ImportDir : Import := ⟨"./Foo", "A.ts", ["x"], false, 0⟩

/-- An import of `./Foo/index.ts` spelled with the full file name. -/
def c1ImportIdxFile : Import := ⟨"./Foo/index.ts", "A.ts", ["y"], false, 0⟩

/-- A file importing the same index file under both spellings. -/
def c1FileA : ParsedFile := ⟨1, [c1ImportDir, c1ImportIdxFile], [], "A", "ts", "A.ts"⟩

/-- The parsed index file `Foo/index.ts`. -/
def c1FileIdx : ParsedFile := ⟨5, [], [], "Foo", "ts", "Foo/index.ts"⟩

/-- An import of `./Foo` from `B.ts`. -/
def c2ImportFoo : Import := ⟨"./Foo", "B.ts", ["x"], false, 0⟩

/-- A file importing `Foo/index.ts` abbreviated as `./Foo`. -/
def c2FileB : ParsedFile := ⟨2, [c2ImportFoo], [], "B", "ts", "B.ts"⟩

/-- The parsed index file `Foo/index.ts` of the index-collapsing scenario. -/
def c2FileIdx : ParsedFile := ⟨5, [], [], "Foo", "ts", "Foo/index.ts"⟩

/-- A tsconfig at `cfgFile` declaring `baseUrl: "src"` and
`paths: {"@app/*": ["app/*"]}`. -/
def c3Config (cfgFile : String) : TypeScriptConfig :=
  ⟨some ⟨some "src", some [("@app/*", ["app/*"])]⟩, some cfgFile⟩

/-- An import of the aliased specifier `@app/utils`. -/
def c3Import : Import := ⟨"@app/utils", "proj/src/main.ts", ["u"], false, 0⟩

/-- The root config of the closest-config scenario. -/
def c4Root : TypeScriptConfig := ⟨none, some "/repo/tsconfig.json"⟩

/-- The package config of the closest-config scenario. -/
def c4PkgA : TypeScriptConfig := ⟨none, some "/repo/pkgA/tsconfig.json"⟩

/-- A `package.json` declaring `lodash`. -/
def c7PackageJson : PackageJson := ⟨some [("lodash", "4.0.0")], none, none, "package.json"⟩

/-- A `package.json` declaring `jest` only under `devDependencies`. -/
def c7DevPackageJson : PackageJson := ⟨none, some [("jest", "29.0")], none, "package.json"⟩

/-- A file importing both `lodash` and `lodash/debounce`. -/
def c7File : ParsedFile :=
  ⟨3, [⟨"lodash", "a.ts", ["map"], false, 0⟩, ⟨"lodash/debounce", "a.ts", [], true, 0⟩],
   [], "a", "ts", "a.ts"⟩

/-- A two-node graph with one disconnected real file and one disconnected
unknown import, for the classification witness. -/
def c6Graph : ImportGraph :=
  ⟨[⟨0, "a", some "a", some "ts", some 1⟩, ⟨1, "util", none, none, none⟩,
    ⟨2, "missing", none, none, none⟩, ⟨3, "lodash", none, none, none⟩],
   [⟨0, 0, 0, false, "x"⟩]⟩

/-- The filesystem of the classification witness: only `/r/util` exists. -/
def c6Fs : FsPath → Bool := fun p => p = [.rootDir, .normal "r", .normal "util"]


/-- The result characterization of `get_closest`: either no config directory
is a component-prefix of the path, or the returned config is a match whose
directory makes the path distance `path.length - dir.length` minimal among
all matches. -/
def ClosestSpec (ts_configs : List TypeScriptConfig) (path : FsPath)
    (r : Option TypeScriptConfig) : Prop :=
  match r with
  | none => ∀ c ∈ ts_configs, ¬ (configDir c).isPrefixOf path = true
  | some c => c ∈ ts_configs ∧ (configDir c).isPrefixOf path = true ∧
      ∀ c2 ∈ ts_configs, (configDir c2).isPrefixOf path = true →
        path.length - (configDir c).length ≤ path.length - (configDir c2).length

/-! ## Path lemmas -/

/-- Every component of the path is a normal one. -/
def allNormal (p : FsPath) : Prop := ∀ c ∈ p, ∃ s, c = PComponent.normal s

/-- The shape `normalize_path` produces: an optional leading root followed by
normal components only. -/
def GoodPath (p : FsPath) : Prop :=
  allNormal p ∨ ∃ rest, p = .rootDir :: rest ∧ allNormal rest

theorem allNormal_dropLast {p : FsPath} (h : allNormal p) : allNormal p.dropLast :=
  fun c hc => h c ((List.dropLast_prefix p).subset hc)

theorem allNormal_concat {p : FsPath} (h : allNormal p) (s : String) :
    allNormal (p ++ [.normal s]) := by
  intro c hc
  rcases List.mem_append.1 hc with hc | hc
  · exact h c hc
  · simp only [List.mem_singleton] at hc
    exact ⟨s, hc⟩

theorem goodPath_pop {p : FsPath} (h : GoodPath p) : GoodPath (popPath p) := by
  unfold popPath
  by_cases hr : p = [.rootDir]
  · simpa [hr] using h
  · simp only [if_neg hr]
    rcases h with h | ⟨rest, rfl, hall⟩
    · exact Or.inl (allNormal_dropLast h)
    · match rest, hall with
      | [], _ => exact absurd rfl hr
      | r :: rs, hall =>
        rw [List.dropLast_cons₂]
        exact Or.inr ⟨(r :: rs).dropLast, rfl, allNormal_dropLast hall⟩

theorem goodPath_concat {p : FsPath} (h : GoodPath p) (s : String) :
    GoodPath (p ++ [.normal s]) := by
  rcases h with h | ⟨rest, rfl, hall⟩
  · exact Or.inl (allNormal_concat h s)
  · exact Or.inr ⟨rest ++ [.normal s], List.cons_append .. , allNormal_concat hall s⟩

theorem goodPath_normalizeFrom : ∀ (l acc : FsPath), GoodPath acc → GoodPath (normalizeFrom acc l)
  | [], _, h => h
  | .rootDir :: rest, acc, _ => by
    have : pushPath acc [.rootDir] = [.rootDir] := by simp [pushPath]
    rw [normalizeFrom, this]
    exact goodPath_normalizeFrom rest [.rootDir] (Or.inr ⟨[], rfl, by intro c hc; cases hc⟩)
  | .curDir :: rest, acc, h => goodPath_normalizeFrom rest acc h
  | .parentDir :: rest, acc, h => goodPath_normalizeFrom rest (popPath acc) (goodPath_pop h)
  | .normal s :: rest, acc, h =>
    goodPath_normalizeFrom rest (acc ++ [.normal s]) (goodPath_concat h s)

theorem normalizeFrom_allNormal : ∀ (l acc : FsPath), allNormal l → normalizeFrom acc l = acc ++ l
  | [], acc, _ => (List.append_nil acc).symm
  | c :: l, acc, h => by
    obtain ⟨s, rfl⟩ := h c (List.mem_cons_self c l)
    show normalizeFrom (acc ++ [.normal s]) l = acc ++ .normal s :: l
    rw [normalizeFrom_allNormal l (acc ++ [PComponent.normal s])
      (fun c hc => h c (List.mem_cons_of_mem _ hc)), List.append_assoc]
    rfl

theorem normalize_good {p : FsPath} (h : GoodPath p) : normalize_path p = p := by
  rcases h with h | ⟨rest, rfl, hall⟩
  · unfold normalize_path
    rw [normalizeFrom_allNormal p [] h, List.nil_append]
  · show normalizeFrom [] (.rootDir :: rest) = _
    have hpush : pushPath ([] : FsPath) [.rootDir] = [.rootDir] := by simp [pushPath]
    rw [normalizeFrom, hpush, normalizeFrom_allNormal rest [.rootDir] hall]
    rfl

/-- C8.  `normalize_path` is idempotent, and `"a/./b/../c"` and `"a/c"`
normalize to the same path: the output of `normalize_path` contains only a
possible root followed by normal components, and such paths are fixed by
`normalize_path`. -/
theorem C8_normalize_idempotent :
    (∀ p : FsPath, normalize_path (normalize_path p) = normalize_path p) ∧
    normalize_path (parsePath "a/./b/../c") = normalize_path (parsePath "a/c") := by
  constructor
  · intro p
    exact normalize_good (goodPath_normalizeFrom p []
      (Or.inl (by intro c hc; cases hc)))
  · decide

/-! ## C9: the per-file parsing dispatch -/

/-- C9 counterexample.  The claim says every file path with an extension
outside `js`/`ts`/`jsx`/`tsx` falls back to the unknown-language handler; for
`main.py` the dispatch instead hits the `panic!` arm of
`languages::parse_file` (modelled by `none`), so no handler runs at all. -/
theorem C9_counterexample :
    parse_file "main.py" = none ∧ parse_file "main.py" ≠ some LanguageKind.ukLang := by
  decide

/-- C9 amended.  Only a file path with no extension at all reaches the
catch-all `Unknown` handler through `languages::parse_file`; the
`Unknown` handler, whenever it returns, yields a `ParsedFile` with
zero imports, zero exports and just the line count; and every nonempty extension
outside `js`/`ts`/`jsx`/`tsx` makes the dispatch panic instead of falling
back. -/
theorem C9_unknown_dispatch :
    (∀ path : String, fileExtensionOf? (parsePath path) = none →
      parse_file path = some LanguageKind.ukLang) ∧
    (∀ (path : String) (fileLines : List String) (pf : ParsedFile),
      unknownParseFile path fileLines = some pf →
      pf.imports = [] ∧ pf.exports = [] ∧ pf.line_count = fileLines.length) ∧
    (∀ (path : String) (e : String), fileExtensionOf? (parsePath path) = some e →
      e ≠ "js" → e ≠ "ts" → e ≠ "jsx" → e ≠ "tsx" → parse_file path = none) := by
  refine ⟨?_, ?_, ?_⟩
  · intro path h
    simp [parse_file, h]
  · intro path fileLines pf h
    unfold unknownParseFile at h
    rcases hn : fileNameOf? (parsePath path) with _ | fn <;> rw [hn] at h
    · cases h
    · rcases he : fileExtensionOf? (parsePath path) with _ | ext <;> rw [he] at h
      · cases h
      · cases h
        exact ⟨rfl, rfl, rfl⟩
  · intro path e he h1 h2 h3 h4
    simp [parse_file, he, h1, h2, h3, h4]

/-- C9 amended, witness: `Makefile` has no extension and is dispatched to the
unknown handler; the handler output for `style.css` has no imports or
exports; and the dispatch panics on `main.py`. -/
theorem C9_unknown_dispatch_witness :
    (fileExtensionOf? (parsePath "Makefile") = none ∧
      parse_file "Makefile" = some LanguageKind.ukLang) ∧
    (unknownParseFile "style.css" ["body {}"] =
        some (⟨1, [], [], "style.css", "css", "style.css"⟩ : ParsedFile) ∧
      ([] : List Import) = [] ∧ ([] : List Export) = [] ∧ (1 : Nat) = ["body {}"].length) ∧
    (fileExtensionOf? (parsePath "main.py") = some "py" ∧ parse_file "main.py" = none) :=
  ⟨⟨by decide, C9_unknown_dispatch.1 "Makefile" (by decide)⟩,
   ⟨by decide, C9_unknown_dispatch.2.1 "style.css" ["body {}"]
      (⟨1, [], [], "style.css", "css", "style.css"⟩ : ParsedFile) (by decide)⟩,
   ⟨by decide, C9_unknown_dispatch.2.2 "main.py" "py" (by decide)
     (by decide) (by decide) (by decide) (by decide)⟩⟩

/-! ## C1: graph well-formedness fails on a double-identity input -/

/-- C1.  With `A.ts` importing the same index file both as `./Foo` and as
`./Foo/index.ts`, the index-merge rule re-keys the directory node onto the
key `Foo/index.ts`, overwriting the node that the explicit import created
there; the edge created for that import keeps node id `2`, which no returned
node carries, so the built graph is not well-formed. -/
theorem C1_wellformedness_failure :
    (extract_import_graph [c1FileA, c1FileIdx] []).map wellFormedGraph = some false ∧
    (extract_import_graph [c1FileA, c1FileIdx] []).map
      (fun g => g.edges.any (fun e => g.nodes.all (fun n => !(n.id == e.source)))) = some true := by
  decide

/-! ## C2: index collapsing is order-dependent -/

/-- C2 counterexample.  When `Foo/index.ts` is parsed before the file
that imports it as `./Foo`, no merge happens: the graph keeps a directory-keyed
placeholder node `Foo` (carrying the edge) next to the file node
`Foo/index.ts`, i.e. two nodes for the same file, refuting the claim for
every input order. -/
theorem C2_counterexample :
    (extract_import_graph [c2FileIdx, c2FileB] []).map
      (fun g => ((g.nodes.filter (fun n => n.path == "Foo" || n.path == "Foo/index.ts")).length == 2)
        && g.nodes.any (fun n => n.path == "Foo")
        && g.nodes.any (fun n => n.path == "Foo/index.ts")) = some true := by
  decide

/-- C2 amended.  When the importing file precedes `Foo/index.ts` in the
input, the two identities are merged: the graph has exactly one node for
`Foo/index.ts` and none keyed `Foo`, and that node keeps the placeholder id
`1` (and, the placeholder carrying no recorded `line_count`, is completed
with the line count of the parsed file). -/
theorem C2_index_collapsing_ordered :
    (extract_import_graph [c2FileB, c2FileIdx] []).map
      (fun g => g.nodes.filter (fun n => n.path == "Foo" || n.path == "Foo/index.ts")) =
      some [⟨1, "Foo/index.ts", some "index.ts", some "ts", some 5⟩] := by
  decide


/-! ## C5, C10: path distance -/

theorem popPath_concat_normal (l : FsPath) (s : String) :
    popPath (l ++ [.normal s]) = l := by
  have h : l ++ [PComponent.normal s] ≠ [PComponent.rootDir] := by
    intro heq
    have := congrArg List.getLast? heq
    rw [List.getLast?_concat] at this
    simp at this
  rw [popPath, if_neg h, List.dropLast_concat]

theorem pdf_self (fuel : Nat) (a : FsPath) : pathDistanceFuel (fuel + 1) a a = some 0 := by
  simp [pathDistanceFuel]

theorem pdf_sound :
    ∀ (fuel : Nat) (a b : FsPath) (n : Nat),
      pathDistanceFuel fuel a b = some n → DistSpec a b n := by
  intro fuel
  induction fuel with
  | zero => intro a b n h; simp [pathDistanceFuel] at h
  | succ k ih =>
    intro a b n h
    by_cases hab : a = b
    · subst hab
      rw [pdf_self] at h
      cases h
      exact DistSpec.refl a
    · rw [pathDistanceFuel, if_neg hab] at h
      by_cases hlt : b.length < a.length
      · rw [if_pos hlt, Option.map_eq_some'] at h
        obtain ⟨m, hm, rfl⟩ := h
        exact DistSpec.popLeft hab hlt (ih _ _ _ hm)
      · rw [if_neg hlt, Option.map_eq_some'] at h
        obtain ⟨m, hm, rfl⟩ := h
        exact DistSpec.popRight hab hlt (ih _ _ _ hm)

theorem pdf_parent_child (d : FsPath) (s : String) (fuel : Nat) :
    pathDistanceFuel (fuel + 2) d (d ++ [.normal s]) = some 1 := by
  have hne : d ≠ d ++ [PComponent.normal s] := by
    intro heq
    have := congrArg List.length heq
    simp at this
  have hnlt : ¬ (d ++ [PComponent.normal s]).length < d.length := by simp
  rw [pathDistanceFuel, if_neg hne, if_neg hnlt, popPath_concat_normal, pdf_self]
  rfl

theorem pdf_siblings (d : FsPath) (s₁ s₂ : String) (h : s₁ ≠ s₂) (fuel : Nat) :
    pathDistanceFuel (fuel + 3) (d ++ [.normal s₁]) (d ++ [.normal s₂]) = some 2 := by
  have hne : d ++ [PComponent.normal s₁] ≠ d ++ [PComponent.normal s₂] := by
    intro heq
    have := List.append_cancel_left heq
    simp at this
    exact h this
  have hnlt : ¬ (d ++ [PComponent.normal s₂]).length < (d ++ [PComponent.normal s₁]).length := by
    simp
  have hne₂ : d ++ [PComponent.normal s₁] ≠ d := by
    intro heq
    have := congrArg List.length heq
    simp at this
  have hlt₂ : (d : FsPath).length < (d ++ [PComponent.normal s₁]).length := by simp
  rw [pathDistanceFuel, if_neg hne, if_neg hnlt, popPath_concat_normal]
  rw [pathDistanceFuel, if_neg hne₂, if_pos hlt₂, popPath_concat_normal, pdf_self]
  rfl

/-- C5.  Whenever `path_distance` returns, its value satisfies the recursive
specification `DistSpec` (equal paths at distance `0`, otherwise pop the
longer path, ties popping the second argument, and add `1`); consequently a
directory and a file directly inside it are `1` apart and two sibling files
are `2` apart. -/
theorem C5_path_distance_spec :
    (∀ (a b : FsPath) (n : Nat), path_distance a b = some n → DistSpec a b n) ∧
    (∀ (d : FsPath) (s : String), path_distance d (d ++ [.normal s]) = some 1) ∧
    (∀ (d : FsPath) (s₁ s₂ : String), s₁ ≠ s₂ →
      path_distance (d ++ [.normal s₁]) (d ++ [.normal s₂]) = some 2) := by
  refine ⟨fun a b n h => pdf_sound _ a b n h, fun d s => ?_, fun d s₁ s₂ h => ?_⟩
  · have harith : d.length + (d ++ [PComponent.normal s]).length + 1 = (d.length + d.length) + 2 := by
      simp
      omega
    rw [path_distance, harith, pdf_parent_child]
  · have harith : (d ++ [PComponent.normal s₁]).length + (d ++ [PComponent.normal s₂]).length + 1 =
        (d.length + d.length) + 3 := by
      simp
      omega
    rw [path_distance, harith, pdf_siblings d s₁ s₂ h]

/-- C5 witness at the concrete paths of the source tests:
`/foo` to `/foo/test.js` is distance `1` (and `DistSpec` holds there), and
the siblings `/foo/rick.js`, `/foo/roll.js` are distance `2` apart. -/
theorem C5_path_distance_spec_witness :
    DistSpec (parsePath "/foo") (parsePath "/foo/test.js") 1 ∧
    path_distance (parsePath "/foo") (parsePath "/foo" ++ [PComponent.normal "test.js"]) = some 1 ∧
    path_distance (parsePath "/foo" ++ [PComponent.normal "rick.js"])
      (parsePath "/foo" ++ [PComponent.normal "roll.js"]) = some 2 :=
  ⟨C5_path_distance_spec.1 (parsePath "/foo") (parsePath "/foo/test.js") 1 (by decide),
   C5_path_distance_spec.2.1 (parsePath "/foo") "test.js",
   C5_path_distance_spec.2.2 (parsePath "/foo") "rick.js" "roll.js" (by decide)⟩

theorem isAbs_cons (c : PComponent) (t : FsPath) :
    isAbs (c :: t) = decide (c = PComponent.rootDir) := by
  simp [isAbs]

theorem pdf_total :
    ∀ (k : Nat) (a b : FsPath), a.length + b.length ≤ k → isAbs a = isAbs b →
      ∃ n, pathDistanceFuel (k + 1) a b = some n := by
  intro k
  induction k with
  | zero =>
    intro a b hlen _
    have ha : a = [] := List.eq_nil_of_length_eq_zero (by omega)
    have hb : b = [] := List.eq_nil_of_length_eq_zero (by omega)
    subst ha; subst hb
    exact ⟨0, pdf_self 0 []⟩
  | succ k ih =>
    intro a b hlen habs
    by_cases hab : a = b
    · exact ⟨0, by rw [hab, pdf_self]⟩
    · by_cases hlt : b.length < a.length
      · have hane : a ≠ [] := by
          intro h; subst h; simp at hlt
      /- popping the longer first argument -/
        have har : a ≠ [PComponent.rootDir] := by
          intro h; subst h
          have hb : b = [] :=
            List.eq_nil_of_length_eq_zero (Nat.lt_one_iff.mp (by simpa using hlt))
          subst hb
          exact absurd habs (by decide)
        have hpop : popPath a = a.dropLast := by rw [popPath, if_neg har]
        have habs2 : isAbs a.dropLast = isAbs b := by
          match a, hane, hlt, habs with
          | [c], _, hlt, habs =>
            have hb : b = [] :=
              List.eq_nil_of_length_eq_zero (Nat.lt_one_iff.mp (by simpa using hlt))
            subst hb
            rfl
          | c :: c₂ :: t, _, _, habs =>
            rw [List.dropLast_cons₂, isAbs_cons, ← isAbs_cons c (c₂ :: t)]
            exact habs
        have hlen2 : a.dropLast.length + b.length ≤ k := by
          rw [List.length_dropLast]
          have h1 : 1 ≤ a.length := by
            cases a with
            | nil => exact absurd rfl hane
            | cons c t => simp
          omega
        obtain ⟨n, hn⟩ := ih a.dropLast b hlen2 habs2
        refine ⟨n + 1, ?_⟩
        rw [pathDistanceFuel, if_neg hab, if_pos hlt, hpop, hn]
        rfl
      · have hale : a.length ≤ b.length := Nat.not_lt.mp hlt
      /- popping the second argument -/
        have hbne : b ≠ [] := by
          intro h; subst h
          have ha0 : a.length = 0 := Nat.le_zero.mp (by simpa using hale)
          exact hab (List.eq_nil_of_length_eq_zero ha0)
        have hbr : b ≠ [PComponent.rootDir] := by
          intro h; subst h
          have habs3 : isAbs a = true := by rw [habs]; decide
          have hhead : a.head? = some PComponent.rootDir := by
            simpa [isAbs] using habs3
          obtain ⟨t, rfl⟩ := List.head?_eq_some_iff.mp hhead
          have ht : t = [] := by
            have h5 : t.length + 1 ≤ 1 := by simpa using hale
            exact List.eq_nil_of_length_eq_zero (by omega)
          subst ht
          exact hab rfl
        have hpop : popPath b = b.dropLast := by rw [popPath, if_neg hbr]
        have habs2 : isAbs a = isAbs b.dropLast := by
          match b, hbne, hbr, habs with
          | [c], _, hbr, habs =>
            show isAbs a = isAbs []
            by_cases hA : isAbs a = true
            · rw [hA] at habs
              rw [isAbs_cons] at habs
              have hc : c = PComponent.rootDir := of_decide_eq_true habs.symm
              subst hc
              exact absurd rfl hbr
            · rw [eq_false_of_ne_true hA]
              decide
          | c :: c₂ :: t, _, _, habs =>
            rw [List.dropLast_cons₂, isAbs_cons, ← isAbs_cons c (c₂ :: t)]
            exact habs
        have hlen2 : a.length + b.dropLast.length ≤ k := by
          rw [List.length_dropLast]
          have h1 : 1 ≤ b.length := by
            cases b with
            | nil => exact absurd rfl hbne
            | cons c t => simp
          omega
        obtain ⟨n, hn⟩ := ih a b.dropLast hlen2 habs2
        refine ⟨n + 1, ?_⟩
        rw [pathDistanceFuel, if_neg hab, if_neg hlt, hpop, hn]
        rfl

/-- C10.  `path_distance` terminates whenever the two paths are both
absolute or both relative; the precondition matters because popping a bare
root path leaves it unchanged, as the diverging mixed pair
`([], [RootDir])` shows. -/
theorem C10_path_distance_termination :
    (∀ a b : FsPath, isAbs a = isAbs b → ∃ n, path_distance a b = some n) ∧
    popPath [PComponent.rootDir] = [PComponent.rootDir] ∧
    path_distance [] [PComponent.rootDir] = none := by
  refine ⟨fun a b h => pdf_total (a.length + b.length) a b (Nat.le_refl _) h, by decide, by decide⟩

/-- C10 witness: the absolute pair `/foo` and `/foo/test.js` satisfies the
precondition and the distance computation returns. -/
theorem C10_path_distance_termination_witness :
    isAbs (parsePath "/foo") = isAbs (parsePath "/foo/test.js") ∧
    ∃ n, path_distance (parsePath "/foo") (parsePath "/foo/test.js") = some n :=
  ⟨by decide,
   C10_path_distance_termination.1 (parsePath "/foo") (parsePath "/foo/test.js") (by decide)⟩


/-! ## C6: dead-file / unknown-import classification -/

theorem deadStep_classify (g : ImportGraph) (dependencies : List String) (root : FsPath)
    (fsExists : FsPath → Bool) (acc : List String × List String) (n : Node) :
    deadStep g dependencies root fsExists acc n =
      match classifyNode g dependencies root fsExists n with
      | .deadFile => (acc.1 ++ [n.path], acc.2)
      | .unknownImport => (acc.1, acc.2 ++ [n.path])
      | _ => acc := by
  unfold deadStep classifyNode
  by_cases h1 : isConnected g n.id <;>
    by_cases h2 : isDependencyPath dependencies n.path <;>
      by_cases h3 :
        fsExists (withExtension (pushPath root (parsePath n.path)) (n.extension.getD "")) <;>
    simp [h1, h2, h3]

theorem dead_foldl (g : ImportGraph) (dependencies : List String) (root : FsPath)
    (fsExists : FsPath → Bool) :
    ∀ (ns : List Node) (acc : List String × List String),
      ns.foldl (deadStep g dependencies root fsExists) acc =
        (acc.1 ++ (ns.filter
            (fun n => classifyNode g dependencies root fsExists n == NodeClass.deadFile)).map
            (·.path),
         acc.2 ++ (ns.filter
            (fun n => classifyNode g dependencies root fsExists n == NodeClass.unknownImport)).map
            (·.path))
  | [], acc => by simp
  | n :: ns, acc => by
    rw [List.foldl_cons, dead_foldl g dependencies root fsExists ns _, deadStep_classify]
    rcases hc : classifyNode g dependencies root fsExists n with _ | _ | _ | _ <;>
      simp [hc, List.filter_cons]

theorem extract_dead_files_eq (g : ImportGraph) (dependencies : List String) (root : FsPath)
    (fsExists : FsPath → Bool) :
    extract_dead_files g dependencies root fsExists =
      ((g.nodes.filter
          (fun n => classifyNode g dependencies root fsExists n == NodeClass.deadFile)).map
          (·.path),
       (g.nodes.filter
          (fun n => classifyNode g dependencies root fsExists n == NodeClass.unknownImport)).map
          (·.path)) := by
  rw [extract_dead_files, dead_foldl]
  simp

theorem pairwise_path_inj :
    ∀ {l : List Node}, l.Pairwise (fun m n => m.path ≠ n.path) →
      ∀ m ∈ l, ∀ n ∈ l, m.path = n.path → m = n := by
  intro l h
  induction l with
  | nil => intro m hm; cases hm
  | cons a t ih =>
    rw [List.pairwise_cons] at h
    intro m hm n hn heq
    rcases List.mem_cons.1 hm with h1 | h1
    · rcases List.mem_cons.1 hn with h2 | h2
      · rw [h1, h2]
      · subst h1
        exact absurd heq (h.1 n h2)
    · rcases List.mem_cons.1 hn with h2 | h2
      · subst h2
        exact absurd heq.symm (h.1 m h1)
      · exact ih h.2 m h1 n h2 heq

/-- C6.  The classification of `extract_dead_files` assigns every node
exactly one of the four classes (being the total function `classifyNode`,
which tests connectivity, then the dependency prefixes, then existence on
disk): the returned `dead_files` are exactly the paths of the nodes
classified dead, the returned `unknown_imports` exactly those classified
unknown, and (for node lists without duplicate paths, as the node-map values
are) the two lists are disjoint. -/
theorem C6_dead_classification (g : ImportGraph) (dependencies : List String) (root : FsPath)
    (fsExists : FsPath → Bool) :
    (∀ p : String, p ∈ (extract_dead_files g dependencies root fsExists).1 ↔
      ∃ n ∈ g.nodes, n.path = p ∧
        classifyNode g dependencies root fsExists n = NodeClass.deadFile) ∧
    (∀ p : String, p ∈ (extract_dead_files g dependencies root fsExists).2 ↔
      ∃ n ∈ g.nodes, n.path = p ∧
        classifyNode g dependencies root fsExists n = NodeClass.unknownImport) ∧
    (g.nodes.Pairwise (fun m n => m.path ≠ n.path) →
      ∀ p : String, p ∈ (extract_dead_files g dependencies root fsExists).1 →
        ¬ p ∈ (extract_dead_files g dependencies root fsExists).2) := by
  rw [extract_dead_files_eq]
  refine ⟨fun p => ?_, fun p => ?_, fun hpw p hp hq => ?_⟩
  · simp only [List.mem_map, List.mem_filter, beq_iff_eq]
    constructor
    · rintro ⟨n, ⟨hn, hcl⟩, rfl⟩
      exact ⟨n, hn, rfl, hcl⟩
    · rintro ⟨n, hn, rfl, hcl⟩
      exact ⟨n, ⟨hn, hcl⟩, rfl⟩
  · simp only [List.mem_map, List.mem_filter, beq_iff_eq]
    constructor
    · rintro ⟨n, ⟨hn, hcl⟩, rfl⟩
      exact ⟨n, hn, rfl, hcl⟩
    · rintro ⟨n, hn, rfl, hcl⟩
      exact ⟨n, ⟨hn, hcl⟩, rfl⟩
  · simp only [List.mem_map, List.mem_filter, beq_iff_eq] at hp hq
    obtain ⟨n, ⟨hn, hcn⟩, hpn⟩ := hp
    obtain ⟨m, ⟨hm, hcm⟩, hpm⟩ := hq
    have : n = m := pairwise_path_inj hpw n hn m hm (by rw [hpn, hpm])
    subst this
    rw [hcn] at hcm
    cases hcm

/-- C6 witness on a concrete four-node graph (connected `a`, dependency
`lodash`, on-disk `util`, missing `missing`): the characterization applies
and the two returned lists are disjoint at `util`. -/
theorem C6_dead_classification_witness :
    ((∃ n ∈ c6Graph.nodes, n.path = "util" ∧
        classifyNode c6Graph ["lodash"] [.rootDir, .normal "r"] c6Fs n = NodeClass.deadFile) ∧
      (∃ n ∈ c6Graph.nodes, n.path = "missing" ∧
        classifyNode c6Graph ["lodash"] [.rootDir, .normal "r"] c6Fs n =
          NodeClass.unknownImport)) ∧
    ¬ "util" ∈ (extract_dead_files c6Graph ["lodash"] [.rootDir, .normal "r"] c6Fs).2 :=
  ⟨⟨(C6_dead_classification c6Graph ["lodash"] [.rootDir, .normal "r"] c6Fs).1 "util" |>.mp
      (by decide),
    (C6_dead_classification c6Graph ["lodash"] [.rootDir, .normal "r"] c6Fs).2.1 "missing" |>.mp
      (by decide)⟩,
   (C6_dead_classification c6Graph ["lodash"] [.rootDir, .normal "r"] c6Fs).2.2
     (by decide) "util" (by decide)⟩


/-! ## C7: package-dependency cross-referencing -/

theorem contains_eq_decide_mem (l : List String) (x : String) :
    l.contains x = decide (x ∈ l) := by
  by_cases h : x ∈ l
  · rw [decide_eq_true h]
    exact List.elem_iff.mpr h
  · rw [decide_eq_false h]
    exact eq_false_of_ne_true (fun hc => h (List.elem_iff.mp hc))

theorem cmContains_eq_isSome (m : CountMap) (x : String) :
    cmContains m x = (cmGet? m x).isSome := by
  induction m with
  | nil => rfl
  | cons a t ih =>
    by_cases h : a.1 == x
    · simp [cmContains, cmGet?, List.any_cons, List.find?_cons, h]
    · simp only [cmContains, cmGet?, List.any_cons, List.find?_cons, h] at ih ⊢
      simpa [h] using ih

theorem find?_replace_self (m : CountMap) (k : String) (v : Nat) :
    cmContains m k = true →
    (m.map (fun p => if p.1 == k then (k, v) else p)).find? (fun p => p.1 == k) =
      some (k, v) := by
  induction m with
  | nil => intro hc; simp [cmContains] at hc
  | cons a t ih =>
    intro hc
    simp only [List.map_cons, List.find?_cons]
    by_cases h : (a.1 == k) = true
    · rw [if_pos h]
      have h1 : ((k : String) == k) = true := by simp
      rw [h1]
    · rw [if_neg h]
      have h2 : (a.1 == k) = false := by
        cases hv : a.1 == k
        · rfl
        · exact absurd hv h
      rw [h2]
      have hct : cmContains t k := by simpa [cmContains, List.any_cons, h2] using hc
      exact ih hct

theorem find?_replace_other (m : CountMap) (k : String) (v : Nat) (x : String) (hxk : x ≠ k) :
    (m.map (fun p => if p.1 == k then (k, v) else p)).find? (fun p => p.1 == x) =
      m.find? (fun p => p.1 == x) := by
  induction m with
  | nil => rfl
  | cons a t ih =>
    simp only [List.map_cons, List.find?_cons]
    by_cases h : (a.1 == k) = true
    · rw [if_pos h]
      have ha : a.1 = k := by simpa using h
      have h1 : ((k : String) == x) = false := by
        simp only [beq_eq_false_iff_ne, ne_eq]
        exact fun e => hxk e.symm
      have h2 : (a.1 == x) = false := by rw [ha]; exact h1
      rw [h1, h2]
      exact ih
    · rw [if_neg h]
      cases hax : (a.1 == x)
      · exact ih
      · rfl

theorem find?_none_of_not_contains (m : CountMap) (x : String) (h : cmContains m x = false) :
    m.find? (fun p => p.1 == x) = none := by
  refine List.find?_eq_none.mpr (fun p hp hpx => ?_)
  have hc : cmContains m x = true := by
    simp only [cmContains, List.any_eq_true]
    exact ⟨p, hp, hpx⟩
  rw [hc] at h
  cases h

theorem cmGet?_insert (m : CountMap) (k : String) (v : Nat) (x : String) :
    cmGet? (cmInsert m k v) x = if x = k then some v else cmGet? m x := by
  unfold cmInsert cmGet?
  by_cases hc : cmContains m k
  · rw [if_pos hc]
    by_cases hxk : x = k
    · subst hxk
      rw [find?_replace_self m x v hc, if_pos rfl]
      rfl
    · rw [find?_replace_other m k v x hxk, if_neg hxk]
  · rw [if_neg hc, List.find?_append]
    by_cases hxk : x = k
    · subst hxk
      rw [find?_none_of_not_contains m x (by simpa using hc), if_pos rfl]
      simp [List.find?_cons]
    · have h1 : List.find? (fun p => p.1 == x) [(k, v)] = none := by
        have : ¬ ((k : String) == x) = true := by
          simp only [beq_iff_eq]
          exact fun e => hxk e.symm
        simp [List.find?_cons, this]
      rw [h1, if_neg hxk]
      cases List.find? (fun p => p.1 == x) m <;> rfl


theorem cmGet?_seedNames (names : List String) :
    ∀ (m : CountMap) (x : String),
      cmGet? (names.foldl (fun m d => cmInsert m d 0) m) x =
        if x ∈ names then some 0 else cmGet? m x := by
  induction names with
  | nil => intro m x; simp
  | cons d names ih =>
    intro m x
    rw [List.foldl_cons, ih]
    by_cases h1 : x ∈ names
    · simp [h1, List.mem_cons]
    · rw [if_neg h1, cmGet?_insert]
      by_cases h2 : x = d
      · simp [h2, List.mem_cons]
      · simp [h2, h1, List.mem_cons]

theorem cmGet?_seeded (package_jsons : List PackageJson) :
    ∀ (m : CountMap) (x : String),
      cmGet? (package_jsons.foldl
          (fun m pj => (list_dependencies pj).foldl (fun m d => cmInsert m d 0) m) m) x =
        if x ∈ declaredNames package_jsons then some 0 else cmGet? m x := by
  induction package_jsons with
  | nil => intro m x; simp [declaredNames]
  | cons pj pjs ih =>
    intro m x
    rw [List.foldl_cons, ih, cmGet?_seedNames]
    have hd : declaredNames (pj :: pjs) = list_dependencies pj ++ declaredNames pjs := by
      simp [declaredNames]
    rw [hd]
    by_cases h1 : x ∈ declaredNames pjs
    · simp [h1, List.mem_append]
    · by_cases h2 : x ∈ list_dependencies pj
      · simp [h1, h2, List.mem_append]
      · simp [h1, h2, List.mem_append]

theorem cmContains_bump (m : CountMap) (k x : String) :
    cmContains (cmBump m k) x = cmContains m x := by
  induction m with
  | nil => rfl
  | cons a t ih =>
    simp only [cmBump, List.map_cons, cmContains, List.any_cons] at ih ⊢
    by_cases h : (a.1 == k) = true
    · rw [if_pos h]
      exact congrArg (a.1 == x || ·) ih
    · rw [if_neg h]
      exact congrArg (a.1 == x || ·) ih

theorem cmGet?_bump (m : CountMap) (k x : String) :
    cmGet? (cmBump m k) x = if x = k then (cmGet? m x).map (· + 1) else cmGet? m x := by
  induction m with
  | nil => simp [cmBump, cmGet?]
  | cons a t ih =>
    simp only [cmBump, List.map_cons, cmGet?, List.find?_cons] at ih ⊢
    by_cases h : (a.1 == k) = true
    · have ha : a.1 = k := by simpa using h
      rw [if_pos h]
      cases hax : (a.1 == x)
      · have hxk : ¬ x = k := by
          intro e
          rw [← ha] at e
          rw [e.symm] at hax
          simp at hax
        rw [if_neg hxk]
        rw [if_neg hxk] at ih
        exact ih
      · have hax2 : a.1 = x := by simpa using hax
        have hxk : x = k := by rw [← hax2, ha]
        rw [if_pos hxk]
        rfl
    · rw [if_neg h]
      cases hax : (a.1 == x)
      · exact ih
      · have hax2 : a.1 = x := by simpa using hax
        have hxk : ¬ x = k := by
          intro e
          rw [← hax2] at e
          exact h (by simp [e])
        rw [if_neg hxk]

theorem cmContains_bumpFirstMatch (m : CountMap) (x : String) :
    ∀ (segs : List String) (acc : String),
      cmContains (bumpFirstMatch m segs acc) x = cmContains m x
  | [], _ => rfl
  | s :: rest, acc => by
    rw [bumpFirstMatch]
    by_cases h : cmContains m (acc ++ s)
    · rw [if_pos h, cmContains_bump]
    · rw [if_neg h]
      exact cmContains_bumpFirstMatch m x rest (acc ++ s ++ "/")

theorem cmContains_countImport (m : CountMap) (imp : Import) (x : String) :
    cmContains (countImport m imp) x = cmContains m x := by
  rw [countImport]
  by_cases h : strStartsWith imp.source "."
  · rw [if_pos h]
  · rw [if_neg h, cmContains_bumpFirstMatch]

theorem bumpFirstMatch_eq (m : CountMap) (names : List String)
    (hinv : ∀ x, cmContains m x = names.contains x) :
    ∀ (segs : List String) (acc : String),
      bumpFirstMatch m segs acc =
        match (accPieces segs acc).find? (fun q => names.contains q) with
        | some q => cmBump m q
        | none => m
  | [], _ => rfl
  | s :: rest, acc => by
    rw [bumpFirstMatch, accPieces, List.find?_cons]
    by_cases h : cmContains m (acc ++ s)
    · rw [if_pos h]
      have : names.contains (acc ++ s) = true := by rw [← hinv]; exact h
      rw [this]
    · rw [if_neg h]
      have : names.contains (acc ++ s) = false := by
        rw [← hinv]
        cases hv : cmContains m (acc ++ s)
        · rfl
        · exact absurd hv h
      rw [this]
      exact bumpFirstMatch_eq m names hinv rest (acc ++ s ++ "/")

theorem cmGet?_countImport (m : CountMap) (names : List String)
    (hinv : ∀ x, cmContains m x = names.contains x) (imp : Import) (d : String) :
    cmGet? (countImport m imp) d =
      if (!strStartsWith imp.source ".") && (firstAccMatch names imp.source == some d) then
        (cmGet? m d).map (· + 1)
      else cmGet? m d := by
  rw [countImport]
  by_cases hs : strStartsWith imp.source "."
  · simp [hs]
  · rw [if_neg hs, bumpFirstMatch_eq m names hinv]
    have hsf : strStartsWith imp.source "." = false := by
      cases hv : strStartsWith imp.source "."
      · rfl
      · exact absurd hv hs
    rcases hfind : (accPieces (splitSlash imp.source) "").find? (fun q => names.contains q)
        with _ | q
    · have : firstAccMatch names imp.source = none := by rw [firstAccMatch, hfind]
      simp [hsf, this]
    · have hfq : firstAccMatch names imp.source = some q := by rw [firstAccMatch, hfind]
      rw [cmGet?_bump]
      by_cases hdq : d = q
      · subst hdq
        simp [hsf, hfq]
      · have : ¬ (firstAccMatch names imp.source == some d) = true := by
          simp [hfq]
          exact fun e => hdq e.symm
        simp only [hsf, Bool.not_false, Bool.true_and, this, if_neg hdq]
        simp [hfq, fun e => hdq (Eq.symm e)]


theorem foldl_imports_flatten :
    ∀ (files : List ParsedFile) (m : CountMap),
      files.foldl (fun m f => f.imports.foldl countImport m) m =
        ((files.map (·.imports)).flatten).foldl countImport m
  | [], _ => rfl
  | f :: files, m => by
    rw [List.foldl_cons, List.map_cons, List.flatten_cons, List.foldl_append]
    exact foldl_imports_flatten files _

theorem cmGet?_countImports (names : List String) (d : String) :
    ∀ (imps : List Import) (m : CountMap),
      (∀ x, cmContains m x = names.contains x) →
      cmGet? (imps.foldl countImport m) d =
        (cmGet? m d).map
          (· + imps.countP
            (fun imp => (!strStartsWith imp.source ".")
              && (firstAccMatch names imp.source == some d)))
  | [], m, _ => by
    cases h : cmGet? m d <;> simp [h]
  | imp :: imps, m, hinv => by
    rw [List.foldl_cons]
    have hinv2 : ∀ x, cmContains (countImport m imp) x = names.contains x := by
      intro x
      rw [cmContains_countImport]
      exact hinv x
    rw [cmGet?_countImports names d imps (countImport m imp) hinv2,
      cmGet?_countImport m names hinv imp d, List.countP_cons]
    by_cases hc : ((!strStartsWith imp.source ".")
        && (firstAccMatch names imp.source == some d)) = true
    · rw [if_pos hc, if_pos hc]
      cases h : cmGet? m d
      · simp
      · simp only [Option.map_some', Option.some.injEq]
        omega
    · rw [if_neg hc, if_neg hc]
      cases h : cmGet? m d
      · simp
      · simp only [Option.map_some', Option.some.injEq]
        omega

/-- C7 counterexample.  The claim (following the spec, which unions the
`dependencies`, `devDependencies` and `peerDependencies` tables) says every
declared dependency name is seeded with a `0` counter; but
`list_dependencies` reads only the `dependencies` table, so a package
declaring `jest` under `devDependencies` alone yields no counter for `jest`
at all — neither a seeded `0` nor anything else. -/
theorem C7_counterexample :
    c7DevPackageJson.dev_dependencies = some [("jest", "29.0")] ∧
    cmGet? (extract_package_json [] [c7DevPackageJson]).dependencies "jest" = none ∧
    ¬ cmGet? (extract_package_json [] [c7DevPackageJson]).dependencies "jest" = some 0 := by
  decide

/-- C7 amended.  Full characterization of `extract_package_json`: the counter
map is defined exactly on the names declared in the `dependencies` tables of
the `package.json` files — not the dev or peer tables, which
`list_dependencies` ignores — each seeded at `0`, and the counter of `d`
equals the number of imports whose specifier does not start with `.` and
whose first `/`-accumulated prefix matching a declared name is `d` — so each
non-relative specifier increments at most the one counter of its first
matching prefix-piece, by exactly `1`, and with `lodash` declared and imports
of `lodash` and `lodash/debounce` the `lodash` counter is `2`. -/
theorem C7_package_cross_reference :
    (∀ (files : List ParsedFile) (package_jsons : List PackageJson) (d : String),
      cmGet? (extract_package_json files package_jsons).dependencies d =
        if d ∈ declaredNames package_jsons then
          some (((files.map (·.imports)).flatten).countP
            (fun imp => (!strStartsWith imp.source ".")
              && (firstAccMatch (declaredNames package_jsons) imp.source == some d)))
        else none) ∧
    cmGet? (extract_package_json [c7File] [c7PackageJson]).dependencies "lodash" = some 2 := by
  constructor
  · intro files pjs d
    show cmGet? (files.foldl (fun m f => f.imports.foldl countImport m)
      (pjs.foldl (fun m pj => (list_dependencies pj).foldl (fun m d => cmInsert m d 0) m) [])) d
        = _
    have hseedinv : ∀ x, cmContains
        (pjs.foldl (fun m pj => (list_dependencies pj).foldl (fun m d => cmInsert m d 0) m) [])
          x = (declaredNames pjs).contains x := by
      intro x
      rw [cmContains_eq_isSome, cmGet?_seeded]
      by_cases h : x ∈ declaredNames pjs
      · rw [if_pos h, contains_eq_decide_mem, decide_eq_true h]
        rfl
      · rw [if_neg h, contains_eq_decide_mem, decide_eq_false h]
        rfl
    rw [foldl_imports_flatten, cmGet?_countImports (declaredNames pjs) d _ _ hseedinv,
      cmGet?_seeded]
    by_cases h : d ∈ declaredNames pjs
    · rw [if_pos h, if_pos h]
      simp
    · rw [if_neg h, if_neg h]
      rfl
  · decide


/-! ## C3: alias resolution -/

theorem strDataAppend (s t : String) : (s ++ t).data = s.data ++ t.data := by
  cases s
  cases t
  rfl

theorem getLast?_data_append (x s : String) (h : s.data ≠ []) :
    ((x ++ s).data).getLast? = s.data.getLast? := by
  rw [strDataAppend, List.getLast?_append]
  cases hl : s.data.getLast? with
  | none => exact absurd (List.getLast?_eq_none_iff.mp hl) h
  | some c => rfl

theorem joinSlash_getLast :
    ∀ (l : List String) (s : String), s.data ≠ [] →
      (joinSlash (l ++ [s])).data.getLast? = s.data.getLast?
  | [], s, _ => rfl
  | [a], s, h => getLast?_data_append (a ++ "/") s h
  | a :: b :: l, s, h => by
    show ((a ++ "/" ++ joinSlash ((b :: l) ++ [s])).data).getLast? = _
    rw [getLast?_data_append]
    · exact joinSlash_getLast (b :: l) s h
    · intro hnil
      have h2 := joinSlash_getLast (b :: l) s h
      rw [hnil] at h2
      have h3 : s.data.getLast?.isSome = true := List.getLast?_isSome.mpr h
      rw [← h2] at h3
      simp at h3

theorem joinSlash_concat_ne_nil (l : List String) (s : String) (h : s.data ≠ []) :
    (joinSlash (l ++ [s])).data ≠ [] := by
  intro hnil
  have h2 := joinSlash_getLast l s h
  rw [hnil] at h2
  have h3 : s.data.getLast?.isSome = true := List.getLast?_isSome.mpr h
  rw [← h2] at h3
  simp at h3

theorem renderPath_concat_getLast :
    ∀ (q : FsPath) (s : String), s.data ≠ [] →
      ((renderPath (q ++ [.normal s])).data).getLast? = s.data.getLast?
  | [], _, _ => rfl
  | .rootDir :: q, s, h => by
    show (("/" ++ joinSlash ((q ++ [PComponent.normal s]).map compStr)).data).getLast? = _
    rw [List.map_append, show List.map compStr [PComponent.normal s] = [s] from rfl,
      getLast?_data_append _ _ (joinSlash_concat_ne_nil (q.map compStr) s h)]
    exact joinSlash_getLast (q.map compStr) s h
  | .curDir :: q, s, h => by
    show (joinSlash ((PComponent.curDir :: (q ++ [PComponent.normal s])).map
      compStr)).data.getLast? = _
    rw [List.map_cons, List.map_append, show List.map compStr [PComponent.normal s] = [s] from rfl,
      ← List.cons_append]
    exact joinSlash_getLast (compStr PComponent.curDir :: q.map compStr) s h
  | .parentDir :: q, s, h => by
    show (joinSlash ((PComponent.parentDir :: (q ++ [PComponent.normal s])).map
      compStr)).data.getLast? = _
    rw [List.map_cons, List.map_append, show List.map compStr [PComponent.normal s] = [s] from rfl,
      ← List.cons_append]
    exact joinSlash_getLast (compStr PComponent.parentDir :: q.map compStr) s h
  | .normal t :: q, s, h => by
    show (joinSlash ((PComponent.normal t :: (q ++ [PComponent.normal s])).map
      compStr)).data.getLast? = _
    rw [List.map_cons, List.map_append, show List.map compStr [PComponent.normal s] = [s] from rfl,
      ← List.cons_append]
    exact joinSlash_getLast (compStr (PComponent.normal t) :: q.map compStr) s h

theorem strEndsWith_slash_false {t : String} {c : Char} (h : t.data.getLast? = some c)
    (hc : ¬ c = '/') : strEndsWith t "/" = false := by
  unfold strEndsWith
  rw [show ("/" : String).data.reverse = ['/'] from rfl]
  rw [← List.head?_reverse] at h
  obtain ⟨ys, hys⟩ := List.head?_eq_some_iff.mp h
  rw [hys]
  show (('/' == c) && List.isPrefixOf [] ys) = false
  rw [beq_eq_false_iff_ne.mpr (fun e => hc e.symm)]
  rfl

theorem normalizeFrom_concat_normal :
    ∀ (l acc : FsPath) (s : String),
      normalizeFrom acc (l ++ [.normal s]) = normalizeFrom acc l ++ [.normal s]
  | [], _, _ => rfl
  | .rootDir :: l, acc, s => normalizeFrom_concat_normal l (pushPath acc [.rootDir]) s
  | .curDir :: l, acc, s => normalizeFrom_concat_normal l acc s
  | .parentDir :: l, acc, s => normalizeFrom_concat_normal l (popPath acc) s
  | .normal t :: l, acc, s => normalizeFrom_concat_normal l (acc ++ [.normal t]) s

theorem normalize_concat_normal (l : FsPath) (s : String) :
    normalize_path (l ++ [.normal s]) = normalize_path l ++ [.normal s] :=
  normalizeFrom_concat_normal l [] s

theorem pushPath_rel (p q : FsPath) (h : ¬ q.head? = some PComponent.rootDir) :
    pushPath p q = p ++ q := by
  rw [pushPath, if_neg h]

theorem stripTrailingSlash_utils (q : FsPath) :
    stripTrailingSlash (renderPath (normalize_path (q ++ [.normal "utils"]))) =
      renderPath (normalize_path (q ++ [.normal "utils"])) := by
  have h1 : ((renderPath (normalize_path (q ++ [.normal "utils"]))).data).getLast? =
      some 's' := by
    rw [normalize_concat_normal]
    rw [renderPath_concat_getLast (normalize_path q) "utils" (by decide)]
    rfl
  rw [stripTrailingSlash, strEndsWith_slash_false h1 (by decide)]
  rfl


theorem applyAliases_no_match :
    ∀ (alist : List (String × List String)) (src : String) (cfp bp : Option String),
      (∀ pr ∈ alist, ∃ v, pr.2.head? = some v ∧
        (strEndsWith pr.1 "*" = true → strEndsWith v "*" = true) ∧
        strStartsWith src
          (if strEndsWith pr.1 "*" then strDropRight pr.1 1 else pr.1) = false) →
      applyAliases cfp bp alist src = some src
  | [], _, _, _, _ => rfl
  | (al, vals) :: rest, src, cfp, bp, h => by
    obtain ⟨v, hv, hw, hns⟩ := h (al, vals) (List.mem_cons_self _ _)
    simp only at hv hw hns
    rw [applyAliases, hv]
    by_cases he : strEndsWith al "*" = true
    · rw [if_pos he] at hns
      simp only [he, if_true, hw he, if_true]
      rw [hns]
      exact applyAliases_no_match rest src cfp bp
        (fun pr hpr => h pr (List.mem_cons_of_mem _ hpr))
    · have he2 : strEndsWith al "*" = false := by
        cases hx : strEndsWith al "*"
        · rfl
        · exact absurd hx he
      rw [if_neg he] at hns
      simp only [he2, Bool.false_eq_true, if_false]
      rw [hns]
      exact applyAliases_no_match rest src cfp bp
        (fun pr hpr => h pr (List.mem_cons_of_mem _ hpr))

/-- C3.  With the closest config declaring `baseUrl "src"` and
`paths {"@app/*": ["app/*"]}` and located at `dir/tsconfig.json`, the
canonical key computed for the specifier `@app/utils` is the normalized
display of `dir` joined with `src/app/utils`; and a non-relative specifier
that matches no (well-formed) alias pattern is left as-is, up to the final
trailing-slash strip. -/
theorem C3_alias_resolution :
    (∀ (cfgFile : String) (dir : FsPath),
      parsePath cfgFile = dir ++ [.normal "tsconfig.json"] →
      resolveSource (some (c3Config cfgFile)) c3Import =
        some (renderPath (normalize_path (pushPath dir (parsePath "src/app/utils"))))) ∧
    (∀ (ts_config : Option TypeScriptConfig) (imp : Import),
      strStartsWith imp.source "." = false →
      (∀ pr ∈ (get_aliases ts_config).getD [], ∃ v, pr.2.head? = some v ∧
        (strEndsWith pr.1 "*" = true → strEndsWith v "*" = true) ∧
        strStartsWith imp.source
          (if strEndsWith pr.1 "*" then strDropRight pr.1 1 else pr.1) = false) →
      resolveSource ts_config imp = some (stripTrailingSlash imp.source)) := by
  constructor
  · intro cfgFile dir hp
    rw [show resolveSource (some (c3Config cfgFile)) c3Import =
      (applyAliases (some cfgFile) (some "src") [("@app/*", ["app/*"])] "@app/utils").map
        stripTrailingSlash from rfl]
    rw [show applyAliases (some cfgFile) (some "src") [("@app/*", ["app/*"])] "@app/utils" =
      some (renderPath (normalize_path (pushPath (pushPath (popPath (parsePath cfgFile))
        (parsePath "src")) (parsePath "app/utils")))) from rfl]
    rw [hp, popPath_concat_normal, Option.map_some']
    rw [pushPath_rel dir (parsePath "src") (by decide),
      pushPath_rel _ (parsePath "app/utils") (by decide),
      pushPath_rel dir (parsePath "src/app/utils") (by decide)]
    rw [show parsePath "src" = [PComponent.normal "src"] from rfl,
      show parsePath "app/utils" = [PComponent.normal "app", PComponent.normal "utils"] from rfl,
      show parsePath "src/app/utils" =
        [PComponent.normal "src", PComponent.normal "app", PComponent.normal "utils"] from rfl]
    rw [List.append_assoc]
    rw [show [PComponent.normal "src"] ++ [PComponent.normal "app", PComponent.normal "utils"] =
      [PComponent.normal "src", PComponent.normal "app", PComponent.normal "utils"] from rfl]
    rw [show dir ++ [PComponent.normal "src", PComponent.normal "app", PComponent.normal "utils"] =
      (dir ++ [PComponent.normal "src", PComponent.normal "app"]) ++ [PComponent.normal "utils"]
      from by rw [List.append_assoc]; rfl]
    rw [stripTrailingSlash_utils]
  · intro ts_config imp hs halias
    rcases ha : get_aliases ts_config with _ | alist
    · rw [resolveSource, if_neg (by simp [hs]), ha]
      rfl
    · cases ts_config with
      | none => simp [get_aliases] at ha
      | some cfg =>
        rw [resolveSource, if_neg (by simp [hs]), ha]
        show Option.map stripTrailingSlash
          (applyAliases cfg.file_path (get_base_path (some cfg)) alist imp.source) = _
        rw [ha] at halias
        rw [applyAliases_no_match alist imp.source cfg.file_path (get_base_path (some cfg))
          halias]
        rfl


/-- C3 witness: with the config at `proj/tsconfig.json` the specifier
`@app/utils` resolves under `proj`, and the unmatched bare specifier
`lodash/debounce` is left as-is. -/
theorem C3_alias_resolution_witness :
    resolveSource (some (c3Config "proj/tsconfig.json")) c3Import =
      some (renderPath (normalize_path (pushPath [PComponent.normal "proj"]
        (parsePath "src/app/utils")))) ∧
    resolveSource (some (c3Config "proj/tsconfig.json"))
        ⟨"lodash/debounce", "a.ts", [], true, 0⟩ =
      some (stripTrailingSlash "lodash/debounce") :=
  ⟨C3_alias_resolution.1 "proj/tsconfig.json" [PComponent.normal "proj"] (by decide),
   C3_alias_resolution.2 (some (c3Config "proj/tsconfig.json"))
     ⟨"lodash/debounce", "a.ts", [], true, 0⟩ (by decide)
     (by
       intro pr hpr
       have hpr2 : pr = ("@app/*", ["app/*"]) := List.mem_singleton.mp hpr
       subst hpr2
       exact ⟨"app/*", rfl, by decide, by decide⟩)⟩


/-! ## C4: closest-config selection -/

theorem isAbs_dropLast_false {l : FsPath} (h : isAbs l = false) : isAbs l.dropLast = false := by
  match l with
  | [] => exact h
  | [c] => rfl
  | c :: c₂ :: t =>
    rw [List.dropLast_cons₂, isAbs_cons, ← isAbs_cons c (c₂ :: t)]
    exact h

theorem prefix_dropLast {dir path : FsPath} (hpre : dir <+: path)
    (hlt : dir.length < path.length) : dir <+: path.dropLast := by
  rw [List.prefix_iff_eq_take] at hpre ⊢
  rw [List.dropLast_eq_take, List.take_take, min_eq_left (by omega)]
  exact hpre

theorem path_ne_root_of_prefix {dir path : FsPath} (hpre : dir <+: path)
    (hne : dir ≠ path) (habs : dir = [] → isAbs path = false) :
    path ≠ [PComponent.rootDir] := by
  intro hp
  subst hp
  have hlen : dir.length < 1 := by
    have h1 := hpre.length_le
    rcases Nat.lt_or_ge dir.length 1 with h | h
    · exact h
    · have : dir.length = 1 := by simpa using Nat.le_antisymm h1 h
      exact absurd (hpre.eq_of_length (by simpa using this)) hne
  have hnil : dir = [] := List.eq_nil_of_length_eq_zero (by omega)
  have := habs hnil
  simp [isAbs] at this

theorem habs_dropLast {dir path : FsPath} (habs : dir = [] → isAbs path = false) :
    dir = [] → isAbs path.dropLast = false :=
  fun h => isAbs_dropLast_false (habs h)

theorem prefix_distance_fwd :
    ∀ (fuel : Nat) (path dir : FsPath), dir <+: path → (dir = [] → isAbs path = false) →
      path.length - dir.length < fuel →
      pathDistanceFuel fuel dir path = some (path.length - dir.length) := by
  intro fuel
  induction fuel with
  | zero => intro path dir _ _ h; omega
  | succ k ih =>
    intro path dir hpre habs hfuel
    by_cases heq : dir = path
    · rw [pathDistanceFuel, if_pos heq, heq, Nat.sub_self]
    · have hlt : dir.length < path.length := by
        rcases Nat.lt_or_ge dir.length path.length with h | h
        · exact h
        · exact absurd (hpre.eq_of_length (Nat.le_antisymm hpre.length_le h)) heq
      have hnlt : ¬ path.length < dir.length := by omega
      have hroot : path ≠ [PComponent.rootDir] := path_ne_root_of_prefix hpre heq habs
      have hpop : popPath path = path.dropLast := by rw [popPath, if_neg hroot]
      have hrec := ih path.dropLast dir (prefix_dropLast hpre hlt) (habs_dropLast habs)
        (by rw [List.length_dropLast]; omega)
      rw [pathDistanceFuel, if_neg heq, if_neg hnlt, hpop, hrec]
      rw [List.length_dropLast] at *
      have : path.length - 1 - dir.length + 1 = path.length - dir.length := by omega
      rw [Option.map_some', this]

theorem prefix_distance_bwd :
    ∀ (fuel : Nat) (path dir : FsPath), dir <+: path → (dir = [] → isAbs path = false) →
      path.length - dir.length < fuel →
      pathDistanceFuel fuel path dir = some (path.length - dir.length) := by
  intro fuel
  induction fuel with
  | zero => intro path dir _ _ h; omega
  | succ k ih =>
    intro path dir hpre habs hfuel
    by_cases heq : path = dir
    · rw [pathDistanceFuel, if_pos heq, heq, Nat.sub_self]
    · have heq2 : dir ≠ path := fun e => heq e.symm
      have hlt : dir.length < path.length := by
        rcases Nat.lt_or_ge dir.length path.length with h | h
        · exact h
        · exact absurd (hpre.eq_of_length (Nat.le_antisymm hpre.length_le h)) heq2
      have hroot : path ≠ [PComponent.rootDir] := path_ne_root_of_prefix hpre heq2 habs
      have hpop : popPath path = path.dropLast := by rw [popPath, if_neg hroot]
      have hrec := ih path.dropLast dir (prefix_dropLast hpre hlt) (habs_dropLast habs)
        (by rw [List.length_dropLast]; omega)
      rw [pathDistanceFuel, if_neg heq, if_pos hlt, hpop, hrec]
      rw [List.length_dropLast] at *
      have : path.length - 1 - dir.length + 1 = path.length - dir.length := by omega
      rw [Option.map_some', this]

theorem path_distance_of_leading_dir (dir path : FsPath) (hpre : dir <+: path)
    (habs : dir = [] → isAbs path = false) :
    path_distance dir path = some (path.length - dir.length) ∧
    path_distance path dir = some (path.length - dir.length) := by
  constructor
  · rw [path_distance]
    exact prefix_distance_fwd (dir.length + path.length + 1) path dir hpre habs (by omega)
  · rw [path_distance]
    exact prefix_distance_bwd (path.length + dir.length + 1) path dir hpre habs (by omega)


theorem getClosestAux_spec (path : FsPath) :
    ∀ (rest seen : List TypeScriptConfig) (acc : Option (TypeScriptConfig × Nat)),
      (∀ c ∈ rest, c.file_path.isSome = true) →
      (∀ c ∈ rest, configDir c = [] → isAbs path = false) →
      (match acc with
        | none => ∀ c ∈ seen, ¬ (configDir c).isPrefixOf path = true
        | some (cc, cd) => cc ∈ seen ∧ (configDir cc).isPrefixOf path = true ∧
            cd = path.length - (configDir cc).length ∧
            ∀ c2 ∈ seen, (configDir c2).isPrefixOf path = true →
              cd ≤ path.length - (configDir c2).length) →
      ∃ r, getClosestAux path rest acc = some r ∧ ClosestSpec (seen ++ rest) path r := by
  intro rest
  induction rest with
  | nil =>
    intro seen acc _ _ hacc
    refine ⟨Option.map Prod.fst acc, rfl, ?_⟩
    rw [List.append_nil]
    cases acc with
    | none => exact hacc
    | some p =>
      obtain ⟨hmem, hmatch, hcd, hmin⟩ := hacc
      refine ⟨hmem, hmatch, fun c2 hc2 hm2 => ?_⟩
      rw [← hcd]
      exact hmin c2 hc2 hm2
  | cons config rest ih =>
    intro seen acc h1 h2 hacc
    obtain ⟨fp, hfp⟩ := Option.isSome_iff_exists.mp (h1 config (List.mem_cons_self _ _))
    have hdir : configDir config = popPath (parsePath fp) := by
      rw [configDir, hfp]
      rfl
    have h1r : ∀ c ∈ rest, c.file_path.isSome = true :=
      fun c hc => h1 c (List.mem_cons_of_mem _ hc)
    have h2r : ∀ c ∈ rest, configDir c = [] → isAbs path = false :=
      fun c hc => h2 c (List.mem_cons_of_mem _ hc)
    have hassoc : (seen ++ [config]) ++ rest = seen ++ config :: rest := by
      rw [List.append_assoc, List.singleton_append]
    simp only [getClosestAux, hfp]
    rw [← hdir]
    by_cases hm : (configDir config).isPrefixOf path = true
    · have hpre : configDir config <+: path := List.isPrefixOf_iff_prefix.mp hm
      have habs0 : configDir config = [] → isAbs path = false :=
        h2 config (List.mem_cons_self _ _)
      have hdist := path_distance_of_leading_dir (configDir config) path hpre habs0
      rw [if_pos hm]
      cases acc with
      | none =>
        simp only [hdist.2]
        have hacc2 : config ∈ seen ++ [config] ∧
            (configDir config).isPrefixOf path = true ∧
            path.length - (configDir config).length =
              path.length - (configDir config).length ∧
            ∀ c2 ∈ seen ++ [config], (configDir c2).isPrefixOf path = true →
              path.length - (configDir config).length ≤
                path.length - (configDir c2).length := by
          refine ⟨List.mem_append_right seen (List.mem_cons_self _ _), hm, rfl,
            fun c2 hc2 hm2 => ?_⟩
          rcases List.mem_append.mp hc2 with hc2 | hc2
          · exact absurd hm2 (hacc c2 hc2)
          · rw [List.mem_singleton.mp hc2]
        obtain ⟨r, hr, hspec⟩ := ih (seen ++ [config])
          (some (config, path.length - (configDir config).length)) h1r h2r hacc2
        rw [hassoc] at hspec
        exact ⟨r, hr, hspec⟩
      | some p =>
        obtain ⟨cc, cd⟩ := p
        obtain ⟨hmem, hmatch, hcd, hmin⟩ := hacc
        simp only [hdist.1]
        by_cases hcmp : path.length - (configDir config).length < cd
        · rw [if_pos hcmp]
          have hacc2 : config ∈ seen ++ [config] ∧
              (configDir config).isPrefixOf path = true ∧
              path.length - (configDir config).length =
                path.length - (configDir config).length ∧
              ∀ c2 ∈ seen ++ [config], (configDir c2).isPrefixOf path = true →
                path.length - (configDir config).length ≤
                  path.length - (configDir c2).length := by
            refine ⟨List.mem_append_right seen (List.mem_cons_self _ _), hm, rfl,
              fun c2 hc2 hm2 => ?_⟩
            rcases List.mem_append.mp hc2 with hc2 | hc2
            · exact Nat.le_trans (Nat.le_of_lt hcmp) (hmin c2 hc2 hm2)
            · rw [List.mem_singleton.mp hc2]
          obtain ⟨r, hr, hspec⟩ := ih (seen ++ [config])
            (some (config, path.length - (configDir config).length)) h1r h2r hacc2
          rw [hassoc] at hspec
          exact ⟨r, hr, hspec⟩
        · rw [if_neg hcmp]
          have hacc2 : cc ∈ seen ++ [config] ∧
              (configDir cc).isPrefixOf path = true ∧
              cd = path.length - (configDir cc).length ∧
              ∀ c2 ∈ seen ++ [config], (configDir c2).isPrefixOf path = true →
                cd ≤ path.length - (configDir c2).length := by
            refine ⟨List.mem_append_left _ hmem, hmatch, hcd, fun c2 hc2 hm2 => ?_⟩
            rcases List.mem_append.mp hc2 with hc2 | hc2
            · exact hmin c2 hc2 hm2
            · rw [List.mem_singleton.mp hc2]
              exact Nat.le_of_not_lt hcmp
          obtain ⟨r, hr, hspec⟩ := ih (seen ++ [config]) (some (cc, cd)) h1r h2r hacc2
          rw [hassoc] at hspec
          exact ⟨r, hr, hspec⟩
    · rw [if_neg hm]
      cases acc with
      | none =>
        have hacc2 : ∀ c ∈ seen ++ [config], ¬ (configDir c).isPrefixOf path = true := by
          intro c2 hc2
          rcases List.mem_append.mp hc2 with hc2 | hc2
          · exact hacc c2 hc2
          · rw [List.mem_singleton.mp hc2]
            exact hm
        obtain ⟨r, hr, hspec⟩ := ih (seen ++ [config]) none h1r h2r hacc2
        rw [hassoc] at hspec
        exact ⟨r, hr, hspec⟩
      | some p =>
        obtain ⟨cc, cd⟩ := p
        obtain ⟨hmem, hmatch, hcd, hmin⟩ := hacc
        have hacc2 : cc ∈ seen ++ [config] ∧
            (configDir cc).isPrefixOf path = true ∧
            cd = path.length - (configDir cc).length ∧
            ∀ c2 ∈ seen ++ [config], (configDir c2).isPrefixOf path = true →
              cd ≤ path.length - (configDir c2).length := by
          refine ⟨List.mem_append_left _ hmem, hmatch, hcd, fun c2 hc2 hm2 => ?_⟩
          rcases List.mem_append.mp hc2 with hc2 | hc2
          · exact hmin c2 hc2 hm2
          · rw [List.mem_singleton.mp hc2] at hm2
            exact absurd hm2 hm
        obtain ⟨r, hr, hspec⟩ := ih (seen ++ [config]) (some (cc, cd)) h1r h2r hacc2
        rw [hassoc] at hspec
        exact ⟨r, hr, hspec⟩


/-- C4.  `get_closest` (given configs that carry a `file_path` and no
degenerate root-directory/relative-path mix, under which every distance call
returns): the result is `none` exactly when no config directory is a
component-prefix of the file path; otherwise the returned config is a
matching one whose path distance to the file is least among all matching
configs.  In particular, with configs at `/repo/tsconfig.json` and
`/repo/pkgA/tsconfig.json`, the file `/repo/pkgA/src/x.ts` selects the
`pkgA` config. -/
theorem C4_closest_config :
    (∀ (ts_configs : List TypeScriptConfig) (path : FsPath),
      (∀ c ∈ ts_configs, c.file_path.isSome = true) →
      (∀ c ∈ ts_configs, configDir c = [] → isAbs path = false) →
      ∃ r, get_closest ts_configs path = some r ∧
        (r = none ↔ ∀ c ∈ ts_configs, ¬ (configDir c).isPrefixOf path = true) ∧
        (∀ c, r = some c → c ∈ ts_configs ∧ (configDir c).isPrefixOf path = true ∧
          ∀ c2 ∈ ts_configs, (configDir c2).isPrefixOf path = true →
            ∀ d d2, path_distance (configDir c) path = some d →
              path_distance (configDir c2) path = some d2 → d ≤ d2)) ∧
    get_closest [c4Root, c4PkgA] (parsePath "/repo/pkgA/src/x.ts") = some (some c4PkgA) := by
  constructor
  · intro cfgs path h1 h2
    obtain ⟨r, hr, hspec⟩ :=
      getClosestAux_spec path cfgs [] none h1 h2 (by intro c hc; cases hc)
    rw [List.nil_append] at hspec
    refine ⟨r, hr, ?_, ?_⟩
    · constructor
      · intro hnone
        rw [hnone] at hspec
        simp only [ClosestSpec] at hspec
        exact hspec
      · intro hall
        cases hc : r with
        | none => rfl
        | some c =>
          rw [hc] at hspec
          simp only [ClosestSpec] at hspec
          exact absurd hspec.2.1 (hall c hspec.1)
    · intro c hc
      rw [hc] at hspec
      simp only [ClosestSpec] at hspec
      obtain ⟨hmem, hmatch, hmin⟩ := hspec
      refine ⟨hmem, hmatch, fun c2 hc2 hm2 d d2 hd hd2 => ?_⟩
      have hdc := (path_distance_of_leading_dir (configDir c) path
        (List.isPrefixOf_iff_prefix.mp hmatch) (h2 c hmem)).1
      have hdc2 := (path_distance_of_leading_dir (configDir c2) path
        (List.isPrefixOf_iff_prefix.mp hm2) (h2 c2 hc2)).1
      have hde : d = path.length - (configDir c).length := Option.some.inj (hd.symm.trans hdc)
      have hde2 : d2 = path.length - (configDir c2).length :=
        Option.some.inj (hd2.symm.trans hdc2)
      rw [hde, hde2]
      exact hmin c2 hc2 hm2
  · decide

/-- C4 witness at the monorepo scenario of the spec: both configs carry a
`file_path`, the file path is absolute while both config directories are
nonempty, and the selection picks the `pkgA` config. -/
theorem C4_closest_config_witness :
    (∀ c ∈ [c4Root, c4PkgA], c.file_path.isSome = true) ∧
    (∃ r, get_closest [c4Root, c4PkgA] (parsePath "/repo/pkgA/src/x.ts") = some r ∧
      (r = none ↔ ∀ c ∈ [c4Root, c4PkgA],
        ¬ (configDir c).isPrefixOf (parsePath "/repo/pkgA/src/x.ts") = true) ∧
      (∀ c, r = some c → c ∈ [c4Root, c4PkgA] ∧
        (configDir c).isPrefixOf (parsePath "/repo/pkgA/src/x.ts") = true ∧
        ∀ c2 ∈ [c4Root, c4PkgA],
          (configDir c2).isPrefixOf (parsePath "/repo/pkgA/src/x.ts") = true →
          ∀ d d2, path_distance (configDir c) (parsePath "/repo/pkgA/src/x.ts") = some d →
            path_distance (configDir c2) (parsePath "/repo/pkgA/src/x.ts") = some d2 →
            d ≤ d2)) :=
  ⟨by decide,
   C4_closest_config.1 [c4Root, c4PkgA] (parsePath "/repo/pkgA/src/x.ts")
     (by decide) (by decide)⟩

end ReactAnalyzer
